import Mathlib

/-!
# Reference Extraction and Citation Graph Engine — verification

Shallow embedding of the citation-graph core of the `japan-law` repository:

* `extractReferences` and the lookup-structure construction from
  `src/scripts/analyze_worker.cjs` (phases 1–3 of reference extraction);
* `dedupeReferences` and `buildBacklinks` from
  `src/scripts/analyze_references_multi.ts`;
* `computeReachability` / `computeReverseReachability` (the FIFO BFS with a
  hop cap) from `src/scripts/graph_worker.ts` and
  `src/scripts/build_full_graph.ts`;
* `findShortestPath` from `src/scripts/build_full_graph.ts`
  (the same loop appears as `findPath` inside `computeImportantPaths` in
  `src/scripts/build_graph_multi.ts`).

JavaScript `Map`/`Set`/objects are modelled by association lists with
first-match lookup and insertion-order preserved (`mapSet` replaces an
existing key in place, otherwise appends, exactly like `Map.prototype.set`);
JavaScript `string`s are `List Char` (all text involved is BMP, so UTF-16
indices coincide with character indices); absent (`undefined`/`null`) values
are `Option`.  While loops are embedded as fuel recursion; the fuel supplied
by the top-level wrappers dominates the loop variant
`queue.length + (universe − visited)`, which strictly decreases at each
iteration, so the fuel-exhaustion branch is never taken (this is proved along
the way: the correctness theorems make no assumption on reaching the branch).
-/

/-! ## Generic association-list helpers (JS `Map` / plain-object semantics) -/

/-- First-match lookup in an association list, i.e. `Map.prototype.get` /
`obj[key]` for maps built with `mapSet` (whose keys are distinct). -/
def lookupMap {α β : Type} [DecidableEq α] (l : List (α × β)) (k : α) : Option β :=
  (l.find? (fun p => decide (p.1 = k))).map (·.2)

/-- Model of `Map.prototype.set`: replace the value at an existing key in place,
otherwise append the new binding (insertion order preserved). -/
def mapSet {α β : Type} [DecidableEq α] (l : List (α × β)) (k : α) (v : β) : List (α × β) :=
  match l with
  | [] => [(k, v)]
  | p :: rest => if p.1 = k then (k, v) :: rest else p :: mapSet rest k v

/-! ## Data model (`LawIndex`, `Reference`) -/

/-- A law-registry record (`LawIndex` in the TypeScript sources).  `lawNum` is
optional because registry objects may lack the field (JS `undefined`). -/
structure LawIndex where
  id : String
  lawNum : Option String
  title : String
  category : String
deriving DecidableEq, Repr

/-- A cross-reference record emitted by the extractor (`Reference`). -/
structure Reference where
  from_law_id : String
  from_law_title : String
  to_law_id : Option String
  to_law_title : String
  to_law_num : Option String
  article : Option String
  paragraph : Option String
  item : Option String
  ref_type : String
deriving DecidableEq, Repr

/-! ## Graph model

Adjacency structures are association lists from node to neighbour list,
covering both `{[key: string]: string[]}` (graph_worker) and iteration over
the keys of `Map<string, Map<string, number>>` / `Set<string>`
(build_full_graph): in every variant the loop body sees an ordered list of
neighbour ids. -/

/-- Adjacency: node id to its ordered neighbour list. -/
abbrev Adj (α : Type) := List (α × List α)

/-- Model of `outgoing[id] || []` resp. `outgoing.get(id)` with the `if (!neighbors)
continue` guard: the neighbour list of a node, empty when absent. -/
def neighborsOf {α : Type} [DecidableEq α] (adj : Adj α) (v : α) : List α :=
  (lookupMap adj v).getD []

/-- All neighbour ids occurring anywhere in the adjacency structure
(used only to size the BFS fuel). -/
def allTargets {α : Type} (adj : Adj α) : List α :=
  adj.foldr (fun p acc => p.2 ++ acc) []

/-- Node universe relevant to a BFS from `start`: `start` and every node that
can ever be enqueued (each enqueued node is some entry's neighbour). -/
def bfsUniverse {α : Type} (start : α) (adj : Adj α) : List α :=
  start :: allTargets adj

/-- Directed walks: `PathLen adj s v n` holds when there is a walk of exactly
`n` edges from `s` to `v` following `neighborsOf adj`. -/
inductive PathLen {α : Type} [DecidableEq α] (adj : Adj α) (s : α) : α → Nat → Prop where
  | zero : PathLen adj s s 0
  | succ {u v : α} {n : Nat} :
      PathLen adj s u n → v ∈ neighborsOf adj u → PathLen adj s v (n + 1)

/-! ## BFS reachability (`computeReachability`, `computeReverseReachability`)

The two JS functions are textually identical up to the name of the adjacency
argument (`outgoing` vs `incoming`), so both wrappers share one loop.

The hop cap is an `Option Nat`: `build_full_graph.ts` passes a number (`50`),
while `build_graph_multi.ts` sends its worker message *without* a `maxHops`
field, so inside `graph_worker.ts` the destructured `maxHops` is `undefined`
and the JS comparison `dist >= maxHops` is always `false` — `hopStop none`
reproduces exactly that. -/

/-- The loop guard `if (dist >= maxHops) continue;`, including the
JS semantics of comparing against an `undefined` cap. -/
def hopStop (maxHops : Option Nat) (dist : Nat) : Bool :=
  match maxHops with
  | some m => decide (m ≤ dist)
  | none => false

/-- BFS state: the FIFO queue of `{id, dist}` records, the visited set, and
the accumulated `distances` map. -/
structure BfsState (α : Type) where
  queue : List (α × Nat)
  visited : List α
  distances : List (α × Nat)

/-- The inner `for (const neighborId of neighbors)` loop: discover each
not-yet-visited neighbour at distance `d + 1`, appending it to the queue and
to `distances`. -/
def bfsExpand {α : Type} [DecidableEq α] (d : Nat) : List α → BfsState α → BfsState α
  | [], s => s
  | n :: ns, s =>
    if n ∈ s.visited then bfsExpand d ns s
    else bfsExpand d ns ⟨s.queue ++ [(n, d + 1)], n :: s.visited, s.distances ++ [(n, d + 1)]⟩

/-- The `while (queue.length > 0)` loop: pop the head, skip expansion when the
hop cap is reached, otherwise expand its neighbours.  Fuel recursion; the
wrappers pass fuel dominating the loop variant, so the `0` branch is dead. -/
def bfsLoop {α : Type} [DecidableEq α] (adj : Adj α) (maxHops : Option Nat) :
    Nat → BfsState α → List (α × Nat)
  | 0, s => s.distances
  | fuel + 1, s =>
    match s.queue with
    | [] => s.distances
    | (id, dist) :: rest =>
      if hopStop maxHops dist then bfsLoop adj maxHops fuel ⟨rest, s.visited, s.distances⟩
      else bfsLoop adj maxHops fuel (bfsExpand dist (neighborsOf adj id) ⟨rest, s.visited, s.distances⟩)

/-- Embedding of `computeReachability(startId, outgoing, maxHops)`
(graph_worker.ts lines 57–82, build_full_graph.ts lines 113–141): distances
from `startId` over the forward adjacency. -/
def computeReachability {α : Type} [DecidableEq α] (startId : α) (outgoing : Adj α)
    (maxHops : Option Nat) : List (α × Nat) :=
  bfsLoop outgoing maxHops ((bfsUniverse startId outgoing).length + 1)
    ⟨[(startId, 0)], [startId], []⟩

/-- Embedding of `computeReverseReachability(targetId, incoming, maxHops)`
(graph_worker.ts lines 84–109): the identical loop over the reverse
adjacency. -/
def computeReverseReachability {α : Type} [DecidableEq α] (targetId : α) (incoming : Adj α)
    (maxHops : Option Nat) : List (α × Nat) :=
  bfsLoop incoming maxHops ((bfsUniverse targetId incoming).length + 1)
    ⟨[(targetId, 0)], [targetId], []⟩

/-- The hop cap sent to the graph worker by `build_graph_multi.ts`
(exhaustive mode): the `runWorker` message at lines 106–117 carries no
`maxHops` field, so the worker destructures `undefined`. -/
def exhaustiveModeMaxHops : Option Nat := none

/-- Result lookup: reading one key of the returned `distances` object. -/
def lookupDist {α : Type} [DecidableEq α] (l : List (α × Nat)) (v : α) : Option Nat :=
  lookupMap l v

/-- The distance the BFS state assigns to a node: the start node is
(conceptually) at distance `0`, every other node reads the `distances` map. -/
def dOf {α : Type} [DecidableEq α] (start : α) (δ : List (α × Nat)) (v : α) : Option Nat :=
  if v = start then some 0 else lookupDist δ v

/-- A hop count admitted by the cap (`True` for the `undefined` cap). -/
def inCap (maxHops : Option Nat) (d : Nat) : Prop :=
  match maxHops with
  | some m => d ≤ m
  | none => True

/-- Mid-expansion invariant of the BFS while expanding the popped node `id`
at distance `dv` (its queue field is the tail of the popped queue plus the
discoveries made so far). -/
structure BfsMid {α : Type} [DecidableEq α] (adj : Adj α) (maxHops : Option Nat)
    (start id : α) (dv : Nat) (s : BfsState α) : Prop where
  nodupV : s.visited.Nodup
  startV : start ∈ s.visited
  keysV : ∀ p ∈ s.distances, p.1 ∈ s.visited ∧ p.1 ≠ start
  visD : ∀ v ∈ s.visited, ∃ d, dOf start s.distances v = some d
  sound : ∀ p ∈ s.distances, PathLen adj start p.1 p.2 ∧ 1 ≤ p.2 ∧ inCap maxHops p.2
  qVis : ∀ p ∈ s.queue, p.1 ∈ s.visited ∧ dOf start s.distances p.1 = some p.2
  qNodup : (s.queue.map Prod.fst).Nodup
  qSorted : s.queue.Pairwise (fun p q => p.2 ≤ q.2)
  qBound : ∀ p ∈ s.queue, dv ≤ p.2 ∧ p.2 ≤ dv + 1
  hid : id ∈ s.visited
  hidq : id ∉ s.queue.map Prod.fst
  hidD : dOf start s.distances id = some dv
  procClosed : ∀ v ∈ s.visited, v ∉ s.queue.map Prod.fst → v ≠ id →
    ∀ dv', dOf start s.distances v = some dv' → hopStop maxHops dv' = false →
    ∀ w ∈ neighborsOf adj v, ∃ dw, dOf start s.distances w = some dw ∧ dw ≤ dv' + 1
  procLe : ∀ v ∈ s.visited, v ∉ s.queue.map Prod.fst →
    ∀ dv', dOf start s.distances v = some dv' → dv' ≤ dv
  visU : ∀ v ∈ s.visited, v ∈ bfsUniverse start adj

/-- Loop invariant of the BFS `while`. -/
structure BfsInv {α : Type} [DecidableEq α] (adj : Adj α) (maxHops : Option Nat)
    (start : α) (s : BfsState α) : Prop where
  nodupV : s.visited.Nodup
  startV : start ∈ s.visited
  keysV : ∀ p ∈ s.distances, p.1 ∈ s.visited ∧ p.1 ≠ start
  visD : ∀ v ∈ s.visited, ∃ d, dOf start s.distances v = some d
  sound : ∀ p ∈ s.distances, PathLen adj start p.1 p.2 ∧ 1 ≤ p.2 ∧ inCap maxHops p.2
  qVis : ∀ p ∈ s.queue, p.1 ∈ s.visited ∧ dOf start s.distances p.1 = some p.2
  qNodup : (s.queue.map Prod.fst).Nodup
  qSorted : s.queue.Pairwise (fun p q => p.2 ≤ q.2)
  qSpread : ∀ p ∈ s.queue, ∀ q ∈ s.queue, q.2 ≤ p.2 + 1
  procClosed : ∀ v ∈ s.visited, v ∉ s.queue.map Prod.fst →
    ∀ dv, dOf start s.distances v = some dv → hopStop maxHops dv = false →
    ∀ w ∈ neighborsOf adj v, ∃ dw, dOf start s.distances w = some dw ∧ dw ≤ dv + 1
  procLe : ∀ v ∈ s.visited, v ∉ s.queue.map Prod.fst →
    ∀ dv, dOf start s.distances v = some dv → ∀ q ∈ s.queue, dv ≤ q.2
  visU : ∀ v ∈ s.visited, v ∈ bfsUniverse start adj

/-- What holds of the `distances` map when the queue has drained: every entry
is a sound, cap-respecting distance for a non-start node, and every assigned
node below the cap has all its neighbours assigned within one extra hop. -/
structure BfsFinal {α : Type} [DecidableEq α] (adj : Adj α) (maxHops : Option Nat)
    (start : α) (δ : List (α × Nat)) : Prop where
  sound : ∀ p ∈ δ, p.1 ≠ start ∧ PathLen adj start p.1 p.2 ∧ 1 ≤ p.2 ∧ inCap maxHops p.2
  closed : ∀ v dv, dOf start δ v = some dv → hopStop maxHops dv = false →
    ∀ w ∈ neighborsOf adj v, ∃ dw, dOf start δ w = some dw ∧ dw ≤ dv + 1

/-! ## Shortest path with reconstruction (`findShortestPath`) -/

/-- The inner neighbour loop of `findShortestPath`: return the extended path
as soon as the target is seen, otherwise enqueue unvisited neighbours with
the path so far. -/
def spExpand {α : Type} [DecidableEq α] (toId : α) (path : List α) :
    List α → List (α × List α) → List α → Option (List α) × List (α × List α) × List α
  | [], q, vis => (none, q, vis)
  | n :: ns, q, vis =>
    if n = toId then (some (path ++ [n]), q, vis)
    else if n ∈ vis then spExpand toId path ns q vis
    else spExpand toId path ns (q ++ [(n, path ++ [n])]) (n :: vis)

/-- The `while (queue.length > 0)` loop of `findShortestPath`. -/
def spLoop {α : Type} [DecidableEq α] (adj : Adj α) (toId : α) :
    Nat → List (α × List α) → List α → Option (List α)
  | 0, _, _ => none
  | _ + 1, [], _ => none
  | fuel + 1, (id, path) :: rest, vis =>
    match spExpand toId path (neighborsOf adj id) rest vis with
    | (some p, _, _) => some p
    | (none, q, vis') => spLoop adj toId fuel q vis'

/-- Embedding of `findShortestPath(fromId, toId, outgoing)`
(build_full_graph.ts lines 177–207; the same BFS-with-path-reconstruction is
`findPath` in build_graph_multi.ts `computeImportantPaths`). -/
def findShortestPath {α : Type} [DecidableEq α] (fromId toId : α) (outgoing : Adj α) :
    Option (List α) :=
  if fromId = toId then some [fromId]
  else spLoop outgoing toId ((bfsUniverse fromId outgoing).length + 1)
    [(fromId, [fromId])] [fromId]

/-! ## Reference extraction (`analyze_worker.cjs`)

Character classes are the regex classes of the worker, decided on code
points.  The three regex scans are embedded as deterministic parsers: each
alternation in the patterns starts with a distinct character and no
quantified class contains its follow-up literal, so the backtracking regex
engine's behaviour is exactly "lazy quantifier = smallest repetition count
that lets the rest match" and "greedy quantifier = take the maximal run". -/

/-- Decide `lo ≤ c ≤ hi` on code points. -/
def inRange (lo hi : Nat) (c : Char) : Bool :=
  decide (lo ≤ c.toNat) && decide (c.toNat ≤ hi)

/-- The class `[一-龠ぁ-んァ-ヶ]` (CJK ideographs, hiragana, katakana): the
partial-match guard of phase 1 and the name class of the amendment pattern. -/
def isKanjiKana (c : Char) : Bool :=
  inRange 0x4E00 0x9FA0 c || inRange 0x3041 0x3093 c || inRange 0x30A1 0x30F6 c

/-- The unknown-law name class `[一-龠ぁ-んァ-ヶａ-ｚＡ-Ｚa-zA-Z・]`. -/
def isUnknownNameChar (c : Char) : Bool :=
  isKanjiKana c || inRange 0xFF41 0xFF5A c || inRange 0xFF21 0xFF3A c ||
    inRange 0x61 0x7A c || inRange 0x41 0x5A c || decide (c = '・')

/-- Article-number digits `[一二三四五六七八九十百千〇０-９0-9]`. -/
def isArtDigit1 (c : Char) : Bool :=
  (['一', '二', '三', '四', '五', '六', '七', '八', '九', '十', '百', '千', '〇'].contains c) ||
    inRange 0xFF10 0xFF19 c || inRange 0x30 0x39 c

/-- Sub-number digits `[一二三四五六七八九十〇０-９0-9]` (no `百`/`千`). -/
def isArtDigit2 (c : Char) : Bool :=
  (['一', '二', '三', '四', '五', '六', '七', '八', '九', '十', '〇'].contains c) ||
    inRange 0xFF10 0xFF19 c || inRange 0x30 0x39 c

/-- Model of `String.prototype.indexOf`: index of the first occurrence, else `null`. -/
def indexOfFrom (name : List Char) : List Char → Nat → Option Nat
  | [], i => if name.isPrefixOf ([] : List Char) then some i else none
  | c :: t, i => if name.isPrefixOf (c :: t) then some i else indexOfFrom name t (i + 1)

/-- The call `text.indexOf(name)` as an `Option Nat`. -/
def indexOf (text name : List Char) : Option Nat :=
  indexOfFrom name text 0

/-- The era alternation `(?:明治|大正|昭和|平成|令和)` (all branches start with
distinct characters): the matched two characters and the remainder. -/
def matchEraSplit : List Char → Option (List Char × List Char)
  | '明' :: '治' :: r => some (['明', '治'], r)
  | '大' :: '正' :: r => some (['大', '正'], r)
  | '昭' :: '和' :: r => some (['昭', '和'], r)
  | '平' :: '成' :: r => some (['平', '成'], r)
  | '令' :: '和' :: r => some (['令', '和'], r)
  | _ => none

/-- The lazy tail `[^）]{3,50}?号）` after the era: consume non-`）`
characters, preferring at each step (once `lo` is exhausted) to close with
`号）`.  Returns the consumed body together with the closing `号`, and the
remainder after the `）`. -/
def numLazyCap : Nat → Nat → List Char → Option (List Char × List Char)
  | _, _, [] => none
  | lo, hi, c :: t' =>
    let stopTry : Option (List Char × List Char) :=
      if lo = 0 then
        match c, t' with
        | '号', '）' :: rest => some (['号'], rest)
        | _, _ => none
      else none
    match stopTry with
    | some r => some r
    | none =>
      if hi = 0 then none
      else if c = '）' then none
      else (numLazyCap (lo - 1) (hi - 1) t').map (fun pr => (c :: pr.1, pr.2))

/-- The parenthesised promulgation number
`（(?:明治|大正|昭和|平成|令和)[^）]{3,50}?号）` anchored at the head:
the captured number (era through `号`) and the remainder after `）`. -/
def parenNumAt : List Char → Option (List Char × List Char)
  | '（' :: t =>
    match matchEraSplit t with
    | some (era, t1) => (numLazyCap 3 50 t1).map (fun pr => (era ++ pr.1, pr.2))
    | none => none
  | _ => none

/-- Phase 1's `numMatch` test `^（(?:明治|…)[^）]{3,50}?号）` (only its
presence matters: it switches `ref_type` to `law_num_ref`). -/
def matchesLawNum (after : List Char) : Bool :=
  (parenNumAt after).isSome

/-- Phase 1's `artMatch`
`^第([一二三四五六七八九十百千〇０-９0-9]+)条(?:の(…))?(?:第(…)項)?(?:第(…)号)?`:
`(article, paragraph, item)` strings as assembled by the worker.  Each
optional group consumes nothing when it fails (its follow-up literal is not
in the digit class, so the regex engine cannot succeed by backtracking). -/
def parseArticle (after : List Char) : Option (String × Option String × Option String) :=
  match after with
  | '第' :: t =>
    let sp := t.span isArtDigit1
    if sp.1 = [] then none
    else
      match sp.2 with
      | '条' :: t2 =>
        let noSplit : Option (List Char) × List Char :=
          match t2 with
          | 'の' :: u =>
            let sp2 := u.span isArtDigit2
            if sp2.1 = [] then (none, t2) else (some sp2.1, sp2.2)
          | _ => (none, t2)
        let paraSplit : Option (List Char) × List Char :=
          match noSplit.2 with
          | '第' :: u =>
            let sp3 := u.span isArtDigit2
            match sp3.2 with
            | '項' :: u2 => if sp3.1 = [] then (none, noSplit.2) else (some sp3.1, u2)
            | _ => (none, noSplit.2)
          | _ => (none, noSplit.2)
        let itemOpt : Option (List Char) :=
          match paraSplit.2 with
          | '第' :: u =>
            let sp4 := u.span isArtDigit2
            match sp4.2 with
            | '号' :: _ => if sp4.1 = [] then none else some sp4.1
            | _ => none
          | _ => none
        some
          (String.mk ('第' :: sp.1 ++ ['条'] ++
             (match noSplit.1 with | some d2 => 'の' :: d2 | none => [])),
           paraSplit.1.map (fun d => String.mk ('第' :: d ++ ['項'])),
           itemOpt.map (fun d => String.mk ('第' :: d ++ ['号'])))
      | _ => none
  | _ => none

/-- The name suffix alternation `(?:法|令|規則|条例)` of the unknown-law
pattern (distinct first characters make it deterministic). -/
def unknownSuffixAt : List Char → Option (List Char × List Char)
  | '法' :: r => some (['法'], r)
  | '令' :: r => some (['令'], r)
  | '規' :: '則' :: r => some (['規', '則'], r)
  | '条' :: '例' :: r => some (['条', '例'], r)
  | _ => none

/-- The unknown-law pattern
`([一-龠ぁ-んァ-ヶａ-ｚＡ-Ｚa-zA-Z・]{2,50}?(?:法|令|規則|条例))（(era…号)）`
anchored at the head, with the lazy name quantifier (`lo` still to consume,
`hi` budget left): `((lawName, lawNum), remainder after the match)`. -/
def findUnknownAt : Nat → Nat → List Char → Option ((List Char × List Char) × List Char)
  | _, _, [] => none
  | lo, hi, c :: t' =>
    let stopTry : Option ((List Char × List Char) × List Char) :=
      if lo = 0 then
        match unknownSuffixAt (c :: t') with
        | some (suf, t1) =>
          match parenNumAt t1 with
          | some (num, t2) => some ((suf, num), t2)
          | none => none
        | none => none
      else none
    match stopTry with
    | some r => some r
    | none =>
      if hi = 0 then none
      else if isUnknownNameChar c then
        (findUnknownAt (lo - 1) (hi - 1) t').map (fun pr => ((c :: pr.1.1, pr.1.2), pr.2))
      else none

/-- The global `unknownLawWithNumPattern.exec` loop: try each position
left to right, resuming after the end of each match (`lastIndex`). -/
def scanUnknown : Nat → List Char → List (List Char × List Char)
  | 0, _ => []
  | fuel + 1, t =>
    match findUnknownAt 2 50 t with
    | some (m, rest) => m :: scanUnknown fuel rest
    | none =>
      match t with
      | [] => []
      | _ :: t' => scanUnknown fuel t'

/-- The literal `の一部を改正する` of the amendment pattern. -/
def amendLiteral : List Char := ['の', '一', '部', 'を', '改', '正', 'す', 'る']

/-- The trailing alternation `(法律|政令|省令|規則)` of the amendment pattern
(distinct first characters). -/
def amendSuffixAt : List Char → Option (List Char × List Char)
  | '法' :: '律' :: r => some (['法', '律'], r)
  | '政' :: '令' :: r => some (['政', '令'], r)
  | '省' :: '令' :: r => some (['省', '令'], r)
  | '規' :: '則' :: r => some (['規', '則'], r)
  | _ => none

/-- The amendment pattern
`([一-龠ぁ-んァ-ヶ]{2,50}?)の一部を改正する(法律|政令|省令|規則)` anchored at
the head: `(captured original-law name, remainder after the match)`. -/
def findAmendAt : Nat → Nat → List Char → Option (List Char × List Char)
  | _, _, [] => none
  | lo, hi, c :: t' =>
    let stopTry : Option (List Char × List Char) :=
      if lo = 0 then
        if amendLiteral.isPrefixOf (c :: t') then
          match amendSuffixAt ((c :: t').drop amendLiteral.length) with
          | some (_, r) => some (([] : List Char), r)
          | none => none
        else none
      else none
    match stopTry with
    | some r => some r
    | none =>
      if hi = 0 then none
      else if isKanjiKana c then
        (findAmendAt (lo - 1) (hi - 1) t').map (fun pr => (c :: pr.1, pr.2))
      else none

/-- The global `amendmentPattern.exec` loop. -/
def scanAmend : Nat → List Char → List (List Char)
  | 0, _ => []
  | fuel + 1, t =>
    match findAmendAt 2 50 t with
    | some (nm, rest) => nm :: scanAmend fuel rest
    | none =>
      match t with
      | [] => []
      | _ :: t' => scanAmend fuel t'

/-- An entry of the worker's `knownLawNames` candidate list. -/
structure KnownName where
  name : String
  law : LawIndex
deriving DecidableEq, Repr

/-- Phase 1 — known-name scan (analyze_worker.cjs lines 98–145).  For each
candidate in order: skip self-citations, already-seen targets and names
shorter than 2; find the first occurrence; reject it (without marking the
target seen) when the preceding character is a CJK ideograph or kana;
otherwise mark seen, look ahead 50 characters for an article number and a
promulgation-number parenthetical, and push the Reference. -/
def phase1 (text : List Char) (fromLaw : LawIndex) :
    List KnownName → List Reference × List String → List Reference × List String
  | [], st => st
  | k :: ks, (refs, seen) =>
    if k.law.id = fromLaw.id then phase1 text fromLaw ks (refs, seen)
    else if k.law.id ∈ seen then phase1 text fromLaw ks (refs, seen)
    else if k.name.length < 2 then phase1 text fromLaw ks (refs, seen)
    else
      match indexOf text k.name.data with
      | none => phase1 text fromLaw ks (refs, seen)
      | some pos =>
        let beforeBad : Bool :=
          match pos with
          | 0 => false
          | p + 1 =>
            match text[p]? with
            | some c => isKanjiKana c
            | none => false
        if beforeBad then phase1 text fromLaw ks (refs, seen)
        else
          let afterText := (text.drop (pos + k.name.length)).take 50
          let art := parseArticle afterText
          let refType0 : String :=
            match art with
            | some _ => "article_ref"
            | none => "law_name"
          let refType : String :=
            if matchesLawNum afterText then "law_num_ref" else refType0
          let ref : Reference :=
            { from_law_id := fromLaw.id
              from_law_title := fromLaw.title
              to_law_id := some k.law.id
              to_law_title := k.name
              to_law_num := k.law.lawNum
              article := art.map (·.1)
              paragraph := (art.map (·.2.1)).join
              item := (art.map (·.2.2)).join
              ref_type := refType }
          phase1 text fromLaw ks (refs ++ [ref], k.law.id :: seen)

/-- The lookup `titleToLaw.get(lawName) || abbrevMap.get(lawName)`. -/
def lookupKnownLaw (titleToLaw abbrevMap : List (String × LawIndex)) (lawName : String) :
    Option LawIndex :=
  match lookupMap titleToLaw lawName with
  | some law => some law
  | none => lookupMap abbrevMap lawName

/-- Phase 2 — unknown-law fallback (lines 148–188), processing the matches of
the global scan in order: a name resolving in the registry maps is pushed as
`law_num_ref` unless already seen or self; an unresolved name is pushed once
as `unknown_law` under the `"unknown:"` seen-key, keeping the captured
number. -/
def phase2 (fromLaw : LawIndex) (titleToLaw abbrevMap : List (String × LawIndex)) :
    List (List Char × List Char) → List Reference × List String → List Reference × List String
  | [], st => st
  | (nameC, numC) :: ms, (refs, seen) =>
    let lawName : String := String.mk nameC
    match lookupKnownLaw titleToLaw abbrevMap lawName with
    | some knownLaw =>
      if knownLaw.id ∉ seen ∧ knownLaw.id ≠ fromLaw.id then
        let ref : Reference :=
          { from_law_id := fromLaw.id
            from_law_title := fromLaw.title
            to_law_id := some knownLaw.id
            to_law_title := lawName
            to_law_num := knownLaw.lawNum
            article := none
            paragraph := none
            item := none
            ref_type := "law_num_ref" }
        phase2 fromLaw titleToLaw abbrevMap ms (refs ++ [ref], knownLaw.id :: seen)
      else phase2 fromLaw titleToLaw abbrevMap ms (refs, seen)
    | none =>
      let key : String := "unknown:" ++ lawName
      if key ∈ seen then phase2 fromLaw titleToLaw abbrevMap ms (refs, seen)
      else
        let ref : Reference :=
          { from_law_id := fromLaw.id
            from_law_title := fromLaw.title
            to_law_id := none
            to_law_title := lawName
            to_law_num := some (String.mk numC)
            article := none
            paragraph := none
            item := none
            ref_type := "unknown_law" }
        phase2 fromLaw titleToLaw abbrevMap ms (refs ++ [ref], key :: seen)

/-- Phase 3 — amendment pattern (lines 191–211): a captured original-law name
resolving in the registry maps is pushed as `amendment_ref` unless already
seen or self; unresolved names are ignored. -/
def phase3 (fromLaw : LawIndex) (titleToLaw abbrevMap : List (String × LawIndex)) :
    List (List Char) → List Reference × List String → List Reference × List String
  | [], st => st
  | nameC :: ms, (refs, seen) =>
    let lawName : String := String.mk nameC
    match lookupKnownLaw titleToLaw abbrevMap lawName with
    | some originalLaw =>
      if originalLaw.id ∉ seen ∧ originalLaw.id ≠ fromLaw.id then
        let ref : Reference :=
          { from_law_id := fromLaw.id
            from_law_title := fromLaw.title
            to_law_id := some originalLaw.id
            to_law_title := lawName
            to_law_num := originalLaw.lawNum
            article := none
            paragraph := none
            item := none
            ref_type := "amendment_ref" }
        phase3 fromLaw titleToLaw abbrevMap ms (refs ++ [ref], originalLaw.id :: seen)
      else phase3 fromLaw titleToLaw abbrevMap ms (refs, seen)
    | none => phase3 fromLaw titleToLaw abbrevMap ms (refs, seen)

/-- Embedding of `extractReferences(xmlContent, fromLaw, knownLawNames, titleToLaw,
abbrevMap, …)` (analyze_worker.cjs lines 85–214): the three phases share the
`references` accumulator and the `seen` set. -/
def extractReferences (xmlContent : List Char) (fromLaw : LawIndex)
    (knownLawNames : List KnownName) (titleToLaw abbrevMap : List (String × LawIndex)) :
    List Reference :=
  let st1 := phase1 xmlContent fromLaw knownLawNames ([], [])
  let st2 := phase2 fromLaw titleToLaw abbrevMap
    (scanUnknown xmlContent.length xmlContent) st1
  let st3 := phase3 fromLaw titleToLaw abbrevMap
    (scanAmend xmlContent.length xmlContent) st2
  st3.1

/-! ## Worker-side lookup construction (analyze_worker.cjs lines 12–41) -/

/-- One value of the abbreviation table (`{ full_name, law_id, count }`). -/
structure AbbrevInfo where
  full_name : String
  law_id : Option String
deriving DecidableEq, Repr

/-- The `titleToLaw` structure: `Map` from title to law, built in registry order. -/
def buildTitleToLaw (lawIndex : List LawIndex) : List (String × LawIndex) :=
  lawIndex.foldl (fun m law => mapSet m law.title law) []

/-- The `lawIdMap` structure: `Map` from id to law. -/
def buildLawIdMap (lawIndex : List LawIndex) : List (String × LawIndex) :=
  lawIndex.foldl (fun m law => mapSet m law.id law) []

/-- The `abbrevMap` structure: abbreviation to law, keeping only entries whose `law_id`
is present and resolves in `lawIdMap`. -/
def buildAbbrevMap (abbreviations : List (String × Option AbbrevInfo))
    (lawIdMap : List (String × LawIndex)) : List (String × LawIndex) :=
  abbreviations.foldl
    (fun m kv =>
      match kv.2 with
      | some info =>
        match info.law_id with
        | some lid =>
          match lookupMap lawIdMap lid with
          | some law => mapSet m kv.1 law
          | none => m
        | none => m
      | none => m)
    []

/-- Candidate ordering `(a, b) => b.name.length - a.name.length`: descending
name length.  JS `Array#sort` is stable, so any stable sort by this total
preorder produces the same list; insertion sort is stable. -/
def knownNameOrder (a b : KnownName) : Prop :=
  b.name.length ≤ a.name.length

instance : DecidableRel knownNameOrder :=
  fun a b => inferInstanceAs (Decidable (b.name.length ≤ a.name.length))

/-- The `knownLawNames` candidate list: all registry titles then all abbreviations, sorted by
descending name length (stable). -/
def buildKnownLawNames (lawIndex : List LawIndex)
    (abbrevMap : List (String × LawIndex)) : List KnownName :=
  List.insertionSort knownNameOrder
    (lawIndex.map (fun law => KnownName.mk law.title law) ++
      abbrevMap.map (fun kv => KnownName.mk kv.1 kv.2))

/-! ## Coordinator: global dedup and backlinks
(analyze_references_multi.ts lines 713–756) -/

/-- JS falsiness of a possibly-absent string (`undefined`, `null` and `""`
are falsy). -/
def jsStringOr (a : Option String) (b : String) : String :=
  match a with
  | some s => if s = "" then b else s
  | none => b

/-- The dedup key `` `${from_law_id}:${to_law_id || to_law_title}:${article || ""}` ``. -/
def dedupeKey (r : Reference) : String :=
  r.from_law_id ++ ":" ++ jsStringOr r.to_law_id r.to_law_title ++ ":" ++
    jsStringOr r.article ""

/-- The stateful `refs.filter` of `dedupeReferences`: keep a record only when
its key has not been seen yet. -/
def dedupeAux (seen : List String) : List Reference → List Reference
  | [] => []
  | r :: rs =>
    if dedupeKey r ∈ seen then dedupeAux seen rs
    else r :: dedupeAux (dedupeKey r :: seen) rs

/-- Embedding of `dedupeReferences(refs)` (lines 713–721). -/
def dedupeReferences (refs : List Reference) : List Reference :=
  dedupeAux [] refs

/-- One entry of a backlink list (`{law_id, law_title, count}`). -/
structure Referrer where
  law_id : String
  law_title : String
  count : Nat
deriving DecidableEq, Repr

/-- One backlink record (`{law_id, law_title, referenced_by}`). -/
structure BacklinkEntry where
  law_id : String
  law_title : String
  referenced_by : List Referrer
deriving DecidableEq, Repr

/-- The comparator `(a, b) => b.count - a.count`: descending count
(stable sort, as JS `Array#sort`). -/
def referrerOrder (a b : Referrer) : Prop :=
  b.count ≤ a.count

instance : DecidableRel referrerOrder :=
  fun a b => inferInstanceAs (Decidable (b.count ≤ a.count))

instance : IsTotal Referrer referrerOrder :=
  ⟨fun a b => (Nat.le_total b.count a.count).imp id id⟩

instance : IsTrans Referrer referrerOrder :=
  ⟨fun _ _ _ hab hbc => Nat.le_trans hbc hab⟩

/-- The `(to_law_id, from_law_id) → count` table of `buildBacklinks`,
built by one pass over the references (nested insertion-ordered maps). -/
def buildCountMap (references : List Reference) : List (String × List (String × Nat)) :=
  references.foldl
    (fun cm ref =>
      match ref.to_law_id with
      | none => cm
      | some toId =>
        let fromMap := (lookupMap cm toId).getD []
        mapSet cm toId
          (mapSet fromMap ref.from_law_id (((lookupMap fromMap ref.from_law_id).getD 0) + 1)))
    []

/-- Converting one target's referrer counts into the pushed list (skipping
`from` ids that do not resolve in the registry, as `laws.find` does). -/
def referrersOf (laws : List LawIndex) (fromMap : List (String × Nat)) : List Referrer :=
  fromMap.foldl
    (fun acc kv =>
      match laws.find? (fun l => decide (l.id = kv.1)) with
      | some fromLaw => acc ++ [⟨kv.1, fromLaw.title, kv.2⟩]
      | none => acc)
    []

/-- Embedding of `buildBacklinks(references, laws)` (lines 723–756): seed an entry per
registry law, tally `(to, from)` counts, then attach each target's referrer
list sorted descending by count. -/
def buildBacklinks (references : List Reference) (laws : List LawIndex) :
    List (String × BacklinkEntry) :=
  let seeded : List (String × BacklinkEntry) :=
    laws.foldl (fun m law => mapSet m law.id ⟨law.id, law.title, []⟩) []
  (buildCountMap references).foldl
    (fun m kv =>
      match lookupMap m kv.1 with
      | none => m
      | some entry =>
        mapSet m kv.1
          { entry with
            referenced_by := List.insertionSort referrerOrder (referrersOf laws kv.2) })
    seeded

/-! ## Proof-level views of the above definitions -/

/-- The target-side invariant a single Reference must satisfy. -/
def RefTargetOk (lawIndex : List LawIndex) (r : Reference) : Prop :=
  ∀ tid, r.to_law_id = some tid → r.from_law_id ≠ tid ∧ tid ∈ lawIndex.map LawIndex.id

/-- The accumulation step of `buildCountMap`. -/
def countStep (cm : List (String × List (String × Nat))) (ref : Reference) :
    List (String × List (String × Nat)) :=
  match ref.to_law_id with
  | none => cm
  | some toId =>
    let fromMap := (lookupMap cm toId).getD []
    mapSet cm toId
      (mapSet fromMap ref.from_law_id (((lookupMap fromMap ref.from_law_id).getD 0) + 1))

/-- The seeding step of `buildBacklinks`. -/
def seedStep (m : List (String × BacklinkEntry)) (law : LawIndex) :
    List (String × BacklinkEntry) :=
  mapSet m law.id ⟨law.id, law.title, []⟩

/-- The update step of `buildBacklinks` over one count-map entry. -/
def updStep (laws : List LawIndex) (m : List (String × BacklinkEntry))
    (kv : String × List (String × Nat)) : List (String × BacklinkEntry) :=
  match lookupMap m kv.1 with
  | none => m
  | some entry =>
    mapSet m kv.1
      { entry with referenced_by := List.insertionSort referrerOrder (referrersOf laws kv.2) }

/-! ## Concrete scenario instances -/

/-- Registry law `{id:"A", title:"民法"}` (no other fields). -/
def lawA : LawIndex := ⟨"A", none, "民法", ""⟩

/-- Registry law `{id:"B", title:"会社法"}`. -/
def lawB : LawIndex := ⟨"B", none, "会社法", ""⟩

/-- The two-law registry of the extraction scenarios. -/
def regAB : List LawIndex := [lawA, lawB]

/-- The worker's `abbrevMap` for `regAB` with an empty abbreviation table. -/
def abbrevMapAB : List (String × LawIndex) := buildAbbrevMap [] (buildLawIdMap regAB)

/-- The worker's `knownLawNames` for `regAB`. -/
def knownAB : List KnownName := buildKnownLawNames regAB abbrevMapAB

/-- The worker's `titleToLaw` for `regAB`. -/
def titleToLawAB : List (String × LawIndex) := buildTitleToLaw regAB

/-- Document text of the Phase-1 look-ahead scenario. -/
def c1Text : List Char := "民法（明治二十九年法律第八十九号）第三条".toList

/-- Document text of the partial-match-guard scenario. -/
def c8Text : List Char := "改正前民法第一条".toList

/-- A deduplicated reference from law B to law A (for backlink witnesses). -/
def refBA : Reference :=
  { from_law_id := "B", from_law_title := "会社法", to_law_id := some "A",
    to_law_title := "民法", to_law_num := none, article := none, paragraph := none,
    item := none, ref_type := "law_name" }

/-- Forward adjacency with edges `A→B` and `B→C`. -/
def abcAdj : Adj String := [("A", ["B"]), ("B", ["C"])]

/-- A 52-node directed path `0 → 1 → ⋯ → 51`. -/
def pathAdj : Adj Nat := (List.range 52).map (fun i => (i, [i + 1]))

/-! # Theorems -/

/-! ## Global deduplication (C6) -/

theorem dedupeAux_key_not_seen (seen : List String) (l : List Reference) :
    ∀ r ∈ dedupeAux seen l, dedupeKey r ∉ seen := by
  induction l generalizing seen with
  | nil => intro r hr; simp [dedupeAux] at hr
  | cons a l ih =>
    intro r hr
    rw [dedupeAux] at hr
    split at hr
    · exact ih seen r hr
    · rcases List.mem_cons.mp hr with rfl | hmem
      · assumption
      · have := ih (dedupeKey a :: seen) r hmem
        exact fun hc => this (List.mem_cons_of_mem _ hc)

theorem dedupeAux_pairwise (seen : List String) (l : List Reference) :
    (dedupeAux seen l).Pairwise (fun a b => dedupeKey a ≠ dedupeKey b) := by
  induction l generalizing seen with
  | nil => simp [dedupeAux]
  | cons a l ih =>
    rw [dedupeAux]
    split
    · exact ih seen
    · refine List.Pairwise.cons ?_ (ih (dedupeKey a :: seen))
      intro r hr hk
      exact dedupeAux_key_not_seen _ _ r hr (hk ▸ List.mem_cons_self _ _)

theorem dedupeAux_eq_self :
    ∀ (l : List Reference) (seen : List String),
      l.Pairwise (fun a b => dedupeKey a ≠ dedupeKey b) →
      (∀ r ∈ l, dedupeKey r ∉ seen) →
      dedupeAux seen l = l := by
  intro l
  induction l with
  | nil => intro seen _ _; rfl
  | cons a l ih =>
    intro seen hp hs
    rw [dedupeAux, if_neg (hs a (List.mem_cons_self _ _))]
    congr 1
    refine ih (dedupeKey a :: seen) (List.Pairwise.of_cons hp) ?_
    intro r hr hmem
    rcases List.mem_cons.mp hmem with hk | hk
    · exact (List.pairwise_cons.mp hp).1 r hr hk.symm
    · exact hs r (List.mem_cons_of_mem _ hr) hk

theorem dedupeAux_filter (seen : List String) (l : List Reference) (k : String) :
    (dedupeAux seen l).filter (fun r => decide (dedupeKey r = k)) =
      if k ∈ seen then [] else (l.filter (fun r => decide (dedupeKey r = k))).take 1 := by
  induction l generalizing seen with
  | nil => simp [dedupeAux]
  | cons a l ih =>
    rw [dedupeAux]
    by_cases hmem : dedupeKey a ∈ seen
    · rw [if_pos hmem, ih seen]
      by_cases hk : k ∈ seen
      · simp [hk]
      · have hak : ¬(dedupeKey a = k) := fun h => hk (h ▸ hmem)
        simp [hk, List.filter_cons, hak]
    · rw [if_neg hmem]
      by_cases hak : dedupeKey a = k
      · subst hak
        have hk : dedupeKey a ∉ seen := hmem
        rw [List.filter_cons]
        simp only [decide_True, if_true]
        rw [ih (dedupeKey a :: seen)]
        simp [hk, List.filter_cons]
      · rw [List.filter_cons]
        simp only [hak, decide_False]
        rw [ih (dedupeKey a :: seen), List.filter_cons]
        simp only [hak, decide_False]
        by_cases hk : k ∈ seen
        · simp [hk]
        · have : ¬(k ∈ dedupeKey a :: seen) := by
            intro hc
            rcases List.mem_cons.mp hc with h | h
            · exact hak h.symm
            · exact hk h
          simp [hk, this]

/-- Claim C6.  Global deduplication keyed by
`(from_law_id, to_law_id-or-to_law_title, article)` keeps the first-seen
record for each key (the output's records at any key are exactly the first
input record carrying it), and is idempotent: `dedupeReferences` applied to
its own output returns it unchanged. -/
theorem dedupeReferences_first_seen_idempotent :
    (∀ (refs : List Reference) (k : String),
      (dedupeReferences refs).filter (fun r => decide (dedupeKey r = k)) =
        (refs.filter (fun r => decide (dedupeKey r = k))).take 1) ∧
    (∀ refs : List Reference, dedupeReferences (dedupeReferences refs) = dedupeReferences refs) := by
  constructor
  · intro refs k
    have := dedupeAux_filter [] refs k
    simpa [dedupeReferences] using this
  · intro refs
    exact dedupeAux_eq_self _ [] (dedupeAux_pairwise [] refs) (by simp)

/-! ## The Phase-1 look-ahead scenario (C1) -/

/-- Claim C1, counterexample.  On registry `regAB` and document B's text
`民法（明治二十九年法律第八十九号）第三条`, extraction does *not* yield a
single Reference with `to_law_num 明治二十九年法律第八十九号`, `article 第三条`
and `ref_type article_ref`: the parenthetical sits between the law name and
`第三条`, the article look-ahead is anchored immediately after the name, so
`artMatch` fails and the promulgation-number test fires instead. -/
theorem c1_scenario_counterexample :
    ¬ ((extractReferences c1Text lawB knownAB titleToLawAB abbrevMapAB).map
        (fun r => (r.from_law_id, r.to_law_id, r.to_law_num, r.article, r.ref_type)) =
      [("B", some "A", some "明治二十九年法律第八十九号", some "第三条", "article_ref")]) := by
  decide

/-- Claim C1, amended.  The scenario yields exactly one Reference: the Phase-1
known-name hit on `民法`, with `from_law_id "B"`, `to_law_id "A"`,
`to_law_title "民法"`, `to_law_num` equal to law A's registry `lawNum`
(absent here), `article` null, and `ref_type "law_num_ref"` — the
parenthetical defeats the immediate article look-ahead and triggers the
promulgation-number classification instead. -/
theorem c1_scenario_amended :
    extractReferences c1Text lawB knownAB titleToLawAB abbrevMapAB =
      [{ from_law_id := "B"
         from_law_title := "会社法"
         to_law_id := some "A"
         to_law_title := "民法"
         to_law_num := lawA.lawNum
         article := none
         paragraph := none
         item := none
         ref_type := "law_num_ref" }] := by
  decide

/-! ## The partial-match guard (C8) -/

/-- Claim C8.  Phase-1 partial-match guard: when a candidate passes the self,
seen and length guards but its first occurrence is immediately preceded by a
CJK-ideograph/kana character, the candidate is skipped entirely — no
Reference is pushed and its law id is not marked seen (the step equals
processing the remaining candidates on the unchanged state).  In particular,
on text `改正前民法第一条` over registry `regAB`, no reference with target
`民法` (law A) is emitted. -/
theorem phase1_partial_match_guard :
    (∀ (text : List Char) (fromLaw : LawIndex) (k : KnownName) (ks : List KnownName)
      (refs : List Reference) (seen : List String) (p : Nat) (c : Char),
      k.law.id ≠ fromLaw.id →
      k.law.id ∉ seen →
      ¬ k.name.length < 2 →
      indexOf text k.name.data = some (p + 1) →
      text[p]? = some c →
      isKanjiKana c = true →
      phase1 text fromLaw (k :: ks) (refs, seen) = phase1 text fromLaw ks (refs, seen)) ∧
    (extractReferences c8Text lawB knownAB titleToLawAB abbrevMapAB).filter
        (fun r => decide (r.to_law_id = some "A")) = [] := by
  constructor
  · intro text fromLaw k ks refs seen p c hself hseen hlen hidx hget hkana
    rw [phase1, if_neg hself, if_neg hseen, if_neg hlen, hidx]
    simp only [hget, hkana, if_true]
  · decide

/-- Witness for `phase1_partial_match_guard`: the guard fires for candidate
`民法` (law A) at position 3 of `改正前民法第一条` (preceded by the ideograph
`前`), leaving the phase-1 state untouched. -/
theorem phase1_partial_match_guard_witness :
    phase1 c8Text lawB [⟨"民法", lawA⟩] ([], []) = phase1 c8Text lawB [] ([], []) :=
  phase1_partial_match_guard.1 c8Text lawB ⟨"民法", lawA⟩ [] [] [] 2 '前'
    (by decide) (by decide) (by decide) (by decide) (by decide) (by decide)

/-! ## Registry invariant of extraction (C2) -/

theorem lookupMap_value_prop {α β : Type} [DecidableEq α] (P : β → Prop)
    (l : List (α × β)) (k : α) (v : β)
    (hl : ∀ p ∈ l, P p.2) (h : lookupMap l k = some v) : P v := by
  unfold lookupMap at h
  match hfind : l.find? (fun p => decide (p.1 = k)) with
  | none => rw [hfind] at h; cases h
  | some p =>
    rw [hfind] at h
    cases h
    exact hl p (List.mem_of_find?_eq_some hfind)

theorem mapSet_value_prop {α β : Type} [DecidableEq α] (P : β → Prop) :
    ∀ (l : List (α × β)) (k : α) (v : β),
      (∀ p ∈ l, P p.2) → P v → ∀ p ∈ mapSet l k v, P p.2 := by
  intro l
  induction l with
  | nil =>
    intro k v _ hv p hp
    rw [mapSet] at hp
    rcases List.mem_singleton.mp hp with rfl
    exact hv
  | cons a l ih =>
    intro k v hl hv p hp
    rw [mapSet] at hp
    split at hp
    · rcases List.mem_cons.mp hp with rfl | hmem
      · exact hv
      · exact hl _ (List.mem_cons_of_mem _ hmem)
    · rcases List.mem_cons.mp hp with rfl | hmem
      · exact hl _ (List.mem_cons_self _ _)
      · exact ih k v (fun q hq => hl q (List.mem_cons_of_mem _ hq)) hv p hmem

theorem foldl_mapSet_title_prop (P : LawIndex → Prop) :
    ∀ (ls : List LawIndex) (m : List (String × LawIndex)),
      (∀ p ∈ m, P p.2) → (∀ law ∈ ls, P law) →
      ∀ p ∈ ls.foldl (fun m law => mapSet m law.title law) m, P p.2 := by
  intro ls
  induction ls with
  | nil => intro m hm _ p hp; exact hm p hp
  | cons a ls ih =>
    intro m hm hls p hp
    rw [List.foldl_cons] at hp
    exact ih _ (mapSet_value_prop P m a.title a hm (hls a (List.mem_cons_self _ _)))
      (fun law hlaw => hls law (List.mem_cons_of_mem _ hlaw)) p hp

theorem foldl_mapSet_id_prop (P : LawIndex → Prop) :
    ∀ (ls : List LawIndex) (m : List (String × LawIndex)),
      (∀ p ∈ m, P p.2) → (∀ law ∈ ls, P law) →
      ∀ p ∈ ls.foldl (fun m law => mapSet m law.id law) m, P p.2 := by
  intro ls
  induction ls with
  | nil => intro m hm _ p hp; exact hm p hp
  | cons a ls ih =>
    intro m hm hls p hp
    rw [List.foldl_cons] at hp
    exact ih _ (mapSet_value_prop P m a.id a hm (hls a (List.mem_cons_self _ _)))
      (fun law hlaw => hls law (List.mem_cons_of_mem _ hlaw)) p hp

theorem buildTitleToLaw_values (lawIndex : List LawIndex) :
    ∀ p ∈ buildTitleToLaw lawIndex, p.2 ∈ lawIndex :=
  foldl_mapSet_title_prop (· ∈ lawIndex) lawIndex [] (by simp) (fun _ h => h)

theorem buildLawIdMap_values (lawIndex : List LawIndex) :
    ∀ p ∈ buildLawIdMap lawIndex, p.2 ∈ lawIndex :=
  foldl_mapSet_id_prop (· ∈ lawIndex) lawIndex [] (by simp) (fun _ h => h)

theorem buildAbbrevMap_values (P : LawIndex → Prop)
    (abbreviations : List (String × Option AbbrevInfo)) (lawIdMap : List (String × LawIndex))
    (hid : ∀ p ∈ lawIdMap, P p.2) :
    ∀ p ∈ buildAbbrevMap abbreviations lawIdMap, P p.2 := by
  unfold buildAbbrevMap
  have key : ∀ (abbrs : List (String × Option AbbrevInfo)) (m : List (String × LawIndex)),
      (∀ p ∈ m, P p.2) →
      ∀ p ∈ abbrs.foldl
        (fun m kv =>
          match kv.2 with
          | some info =>
            match info.law_id with
            | some lid =>
              match lookupMap lawIdMap lid with
              | some law => mapSet m kv.1 law
              | none => m
            | none => m
          | none => m) m, P p.2 := by
    intro abbrs
    induction abbrs with
    | nil => intro m hm p hp; exact hm p hp
    | cons a abbrs ih =>
      intro m hm p hp
      rw [List.foldl_cons] at hp
      refine ih _ ?_ p hp
      match ha : a.2 with
      | none => simpa [ha] using hm
      | some info =>
        match hl : info.law_id with
        | none => simpa [ha, hl] using hm
        | some lid =>
          match hlk : lookupMap lawIdMap lid with
          | none => simpa [ha, hl, hlk] using hm
          | some law =>
            simp only [ha, hl, hlk]
            exact mapSet_value_prop P m a.1 law hm (lookupMap_value_prop P lawIdMap lid law hid hlk)
  exact key abbreviations [] (by simp)

theorem buildKnownLawNames_laws (lawIndex : List LawIndex)
    (abbrevMap : List (String × LawIndex))
    (hab : ∀ p ∈ abbrevMap, p.2 ∈ lawIndex) :
    ∀ kn ∈ buildKnownLawNames lawIndex abbrevMap, kn.law ∈ lawIndex := by
  intro kn hkn
  unfold buildKnownLawNames at hkn
  rw [(List.perm_insertionSort knownNameOrder _).mem_iff] at hkn
  rcases List.mem_append.mp hkn with h | h
  · rcases List.mem_map.mp h with ⟨law, hlaw, rfl⟩
    exact hlaw
  · rcases List.mem_map.mp h with ⟨kv, hkv, rfl⟩
    exact hab kv hkv

theorem lookupKnownLaw_mem (lawIndex : List LawIndex)
    (titleToLaw abbrevMap : List (String × LawIndex))
    (ht : ∀ p ∈ titleToLaw, p.2 ∈ lawIndex) (ha : ∀ p ∈ abbrevMap, p.2 ∈ lawIndex)
    (nm : String) (law : LawIndex) (h : lookupKnownLaw titleToLaw abbrevMap nm = some law) :
    law ∈ lawIndex := by
  unfold lookupKnownLaw at h
  match hfind : lookupMap titleToLaw nm with
  | some l =>
    rw [hfind] at h
    cases h
    exact lookupMap_value_prop (· ∈ lawIndex) titleToLaw nm _ ht hfind
  | none =>
    rw [hfind] at h
    exact lookupMap_value_prop (· ∈ lawIndex) abbrevMap nm _ ha h

theorem phase1_refTargetOk (lawIndex : List LawIndex) (text : List Char) (fromLaw : LawIndex) :
    ∀ (ks : List KnownName) (refs : List Reference) (seen : List String),
      (∀ kn ∈ ks, kn.law ∈ lawIndex) →
      (∀ r ∈ refs, RefTargetOk lawIndex r) →
      ∀ r ∈ (phase1 text fromLaw ks (refs, seen)).1, RefTargetOk lawIndex r := by
  intro ks
  induction ks with
  | nil => intro refs seen _ hrefs r hr; exact hrefs r hr
  | cons k ks ih =>
    intro refs seen hks hrefs r hr
    have hkmem : k.law ∈ lawIndex := hks k (List.mem_cons_self _ _)
    have hks' : ∀ kn ∈ ks, kn.law ∈ lawIndex := fun kn h => hks kn (List.mem_cons_of_mem _ h)
    rw [phase1] at hr
    by_cases hself : k.law.id = fromLaw.id
    · rw [if_pos hself] at hr; exact ih refs seen hks' hrefs r hr
    · rw [if_neg hself] at hr
      by_cases hseen : k.law.id ∈ seen
      · rw [if_pos hseen] at hr; exact ih refs seen hks' hrefs r hr
      · rw [if_neg hseen] at hr
        by_cases hlen : k.name.length < 2
        · rw [if_pos hlen] at hr; exact ih refs seen hks' hrefs r hr
        · rw [if_neg hlen] at hr
          match hidx : indexOf text k.name.data with
          | none =>
            rw [hidx] at hr
            exact ih refs seen hks' hrefs r hr
          | some pos =>
            rw [hidx] at hr
            simp only at hr
            split at hr
            · exact ih refs seen hks' hrefs r hr
            · refine ih _ _ hks' ?_ r hr
              intro r' hr'
              rcases List.mem_append.mp hr' with h | h
              · exact hrefs r' h
              · rcases List.mem_singleton.mp h with rfl
                intro tid htid
                cases htid
                exact ⟨fun hc => hself hc.symm,
                  List.mem_map.mpr ⟨k.law, hkmem, rfl⟩⟩

theorem phase2_refTargetOk (lawIndex : List LawIndex) (fromLaw : LawIndex)
    (titleToLaw abbrevMap : List (String × LawIndex))
    (ht : ∀ p ∈ titleToLaw, p.2 ∈ lawIndex) (ha : ∀ p ∈ abbrevMap, p.2 ∈ lawIndex) :
    ∀ (ms : List (List Char × List Char)) (refs : List Reference) (seen : List String),
      (∀ r ∈ refs, RefTargetOk lawIndex r) →
      ∀ r ∈ (phase2 fromLaw titleToLaw abbrevMap ms (refs, seen)).1, RefTargetOk lawIndex r := by
  intro ms
  induction ms with
  | nil => intro refs seen hrefs r hr; exact hrefs r hr
  | cons m ms ih =>
    intro refs seen hrefs r hr
    match m with
    | (nameC, numC) =>
      match hlk : lookupKnownLaw titleToLaw abbrevMap (String.mk nameC) with
      | some knownLaw =>
        by_cases hcond : knownLaw.id ∉ seen ∧ knownLaw.id ≠ fromLaw.id
        · simp only [phase2, hlk, if_pos hcond] at hr
          refine ih _ _ ?_ r hr
          intro r' hr'
          rcases List.mem_append.mp hr' with h | h
          · exact hrefs r' h
          · rcases List.mem_singleton.mp h with rfl
            intro tid htid
            cases htid
            exact ⟨fun hc => hcond.2 hc.symm,
              List.mem_map.mpr
                ⟨knownLaw, lookupKnownLaw_mem lawIndex titleToLaw abbrevMap ht ha _ _ hlk, rfl⟩⟩
        · simp only [phase2, hlk, if_neg hcond] at hr
          exact ih refs seen hrefs r hr
      | none =>
        by_cases hk : ("unknown:" ++ String.mk nameC) ∈ seen
        · simp only [phase2, hlk, if_pos hk] at hr
          exact ih refs seen hrefs r hr
        · simp only [phase2, hlk, if_neg hk] at hr
          refine ih _ _ ?_ r hr
          intro r' hr'
          rcases List.mem_append.mp hr' with h | h
          · exact hrefs r' h
          · rcases List.mem_singleton.mp h with rfl
            intro tid htid
            cases htid

theorem phase3_refTargetOk (lawIndex : List LawIndex) (fromLaw : LawIndex)
    (titleToLaw abbrevMap : List (String × LawIndex))
    (ht : ∀ p ∈ titleToLaw, p.2 ∈ lawIndex) (ha : ∀ p ∈ abbrevMap, p.2 ∈ lawIndex) :
    ∀ (ms : List (List Char)) (refs : List Reference) (seen : List String),
      (∀ r ∈ refs, RefTargetOk lawIndex r) →
      ∀ r ∈ (phase3 fromLaw titleToLaw abbrevMap ms (refs, seen)).1, RefTargetOk lawIndex r := by
  intro ms
  induction ms with
  | nil => intro refs seen hrefs r hr; exact hrefs r hr
  | cons nameC ms ih =>
    intro refs seen hrefs r hr
    match hlk : lookupKnownLaw titleToLaw abbrevMap (String.mk nameC) with
    | some originalLaw =>
      by_cases hcond : originalLaw.id ∉ seen ∧ originalLaw.id ≠ fromLaw.id
      · simp only [phase3, hlk, if_pos hcond] at hr
        refine ih _ _ ?_ r hr
        intro r' hr'
        rcases List.mem_append.mp hr' with h | h
        · exact hrefs r' h
        · rcases List.mem_singleton.mp h with rfl
          intro tid htid
          cases htid
          exact ⟨fun hc => hcond.2 hc.symm,
            List.mem_map.mpr
              ⟨originalLaw, lookupKnownLaw_mem lawIndex titleToLaw abbrevMap ht ha _ _ hlk, rfl⟩⟩
      · simp only [phase3, hlk, if_neg hcond] at hr
        exact ih refs seen hrefs r hr
    | none =>
      simp only [phase3, hlk] at hr
      exact ih refs seen hrefs r hr

/-- Claim C2.  Every Reference emitted by the extractor (over the lookup
structures the worker builds from the registry and the abbreviation table)
whose `to_law_id` is set has `from_law_id ≠ to_law_id`, and its `to_law_id`
is the id of a registry law — across all three phases. -/
theorem extractReferences_target_invariant
    (lawIndex : List LawIndex) (abbreviations : List (String × Option AbbrevInfo))
    (text : List Char) (fromLaw : LawIndex) (r : Reference) (tid : String)
    (hr : r ∈ extractReferences text fromLaw
      (buildKnownLawNames lawIndex (buildAbbrevMap abbreviations (buildLawIdMap lawIndex)))
      (buildTitleToLaw lawIndex)
      (buildAbbrevMap abbreviations (buildLawIdMap lawIndex)))
    (htid : r.to_law_id = some tid) :
    r.from_law_id ≠ tid ∧ tid ∈ lawIndex.map LawIndex.id := by
  have hab : ∀ p ∈ buildAbbrevMap abbreviations (buildLawIdMap lawIndex), p.2 ∈ lawIndex :=
    buildAbbrevMap_values (· ∈ lawIndex) abbreviations _ (buildLawIdMap_values lawIndex)
  have ht : ∀ p ∈ buildTitleToLaw lawIndex, p.2 ∈ lawIndex := buildTitleToLaw_values lawIndex
  have hkn := buildKnownLawNames_laws lawIndex _ hab
  unfold extractReferences at hr
  refine phase3_refTargetOk lawIndex fromLaw _ _ ht hab _ _ _ ?_ r hr tid htid
  intro r2 hr2
  refine phase2_refTargetOk lawIndex fromLaw _ _ ht hab _ _ _ ?_ r2 hr2
  intro r1 hr1
  exact phase1_refTargetOk lawIndex text fromLaw _ _ _ hkn (by simp) r1 hr1

/-- Witness for `extractReferences_target_invariant`: the reference the
scenario `c1Text` extraction emits targets law A with `from_law_id "B"`,
so the theorem yields `"B" ≠ "A"` and `"A"` among the registry ids. -/
theorem extractReferences_target_invariant_witness :
    ("B" : String) ≠ "A" ∧ ("A" : String) ∈ regAB.map LawIndex.id := by
  have hr : ∃ r, r ∈ extractReferences c1Text lawB
      (buildKnownLawNames regAB (buildAbbrevMap [] (buildLawIdMap regAB)))
      (buildTitleToLaw regAB)
      (buildAbbrevMap [] (buildLawIdMap regAB)) ∧
      r.to_law_id = some "A" ∧ r.from_law_id = "B" := by
    refine ⟨_, List.mem_singleton.mpr rfl, ?_, ?_⟩ <;> decide
  rcases hr with ⟨r, hmem, htid, hfrom⟩
  have := extractReferences_target_invariant regAB [] c1Text lawB r "A" hmem htid
  exact ⟨hfrom ▸ this.1, this.2⟩

/-! ## Backlink aggregation (C7) -/

theorem mapSet_mem {α β : Type} [DecidableEq α] :
    ∀ (l : List (α × β)) (k : α) (v : β) (p : α × β),
      p ∈ mapSet l k v → p = (k, v) ∨ p ∈ l := by
  intro l
  induction l with
  | nil =>
    intro k v p hp
    rw [mapSet] at hp
    exact Or.inl (List.mem_singleton.mp hp)
  | cons a l ih =>
    intro k v p hp
    rw [mapSet] at hp
    split at hp
    · rcases List.mem_cons.mp hp with rfl | h
      · exact Or.inl rfl
      · exact Or.inr (List.mem_cons_of_mem _ h)
    · rcases List.mem_cons.mp hp with rfl | h
      · exact Or.inr (List.mem_cons_self _ _)
      · rcases ih k v p h with h' | h'
        · exact Or.inl h'
        · exact Or.inr (List.mem_cons_of_mem _ h')

theorem lookupMap_cons {α β : Type} [DecidableEq α] (a : α × β) (l : List (α × β)) (k : α) :
    lookupMap (a :: l) k = if a.1 = k then some a.2 else lookupMap l k := by
  by_cases h : a.1 = k <;> simp [lookupMap, List.find?_cons, h]

theorem lookupMap_mapSet_self {α β : Type} [DecidableEq α] :
    ∀ (l : List (α × β)) (k : α) (v : β), lookupMap (mapSet l k v) k = some v := by
  intro l
  induction l with
  | nil => intro k v; simp [mapSet, lookupMap]
  | cons a l ih =>
    intro k v
    rw [mapSet]
    split
    · simp [lookupMap_cons]
    · rename_i hne
      rw [lookupMap_cons, if_neg hne]
      exact ih k v

theorem lookupMap_mapSet_ne {α β : Type} [DecidableEq α] :
    ∀ (l : List (α × β)) (k k' : α) (v : β), k' ≠ k →
      lookupMap (mapSet l k v) k' = lookupMap l k' := by
  intro l
  induction l with
  | nil =>
    intro k k' v hne
    rw [mapSet, lookupMap_cons, if_neg (fun h => hne h.symm)]
  | cons a l ih =>
    intro k k' v hne
    rw [mapSet]
    split
    · rename_i heq
      rw [lookupMap_cons, lookupMap_cons, if_neg (fun h => hne h.symm), if_neg (heq ▸ fun h => hne h.symm)]
    · rw [lookupMap_cons, lookupMap_cons]
      by_cases h : a.1 = k'
      · rw [if_pos h, if_pos h]
      · rw [if_neg h, if_neg h]
        exact ih k k' v hne

theorem mapSet_keys_mem {α β : Type} [DecidableEq α] (l : List (α × β)) (k : α) (v : β)
    (x : α) (hx : x ∈ (mapSet l k v).map Prod.fst) : x = k ∨ x ∈ l.map Prod.fst := by
  rcases List.mem_map.mp hx with ⟨p, hp, rfl⟩
  rcases mapSet_mem l k v p hp with rfl | h
  · exact Or.inl rfl
  · exact Or.inr (List.mem_map.mpr ⟨p, h, rfl⟩)

theorem mapSet_keys_nodup {α β : Type} [DecidableEq α] :
    ∀ (l : List (α × β)) (k : α) (v : β),
      (l.map Prod.fst).Nodup → ((mapSet l k v).map Prod.fst).Nodup := by
  intro l
  induction l with
  | nil => intro k v _; simp [mapSet]
  | cons a l ih =>
    intro k v hnd
    rw [List.map_cons, List.nodup_cons] at hnd
    rw [mapSet]
    split
    · rename_i heq
      rw [List.map_cons, List.nodup_cons]
      exact ⟨heq ▸ hnd.1, hnd.2⟩
    · rename_i hne
      rw [List.map_cons, List.nodup_cons]
      refine ⟨?_, ih k v hnd.2⟩
      intro hc
      rcases mapSet_keys_mem l k v a.1 hc with h | h
      · exact hne h
      · exact hnd.1 h

theorem mapSet_bump_sum (fm : List (String × Nat)) (k : String) :
    ((mapSet fm k ((lookupMap fm k).getD 0 + 1)).map Prod.snd).sum =
      (fm.map Prod.snd).sum + 1 := by
  induction fm with
  | nil => simp [mapSet, lookupMap]
  | cons a fm ih =>
    rw [lookupMap_cons]
    by_cases h : a.1 = k
    · rw [if_pos h, mapSet, if_pos h]
      simp only [List.map_cons, List.sum_cons, Option.getD_some]
      omega
    · rw [if_neg h, mapSet, if_neg h]
      simp only [List.map_cons, List.sum_cons]
      rw [ih]
      omega

theorem buildCountMap_eq_foldl (references : List Reference) :
    buildCountMap references = references.foldl countStep [] := by
  rfl

theorem countStep_foldl_sum :
    ∀ (rs : List Reference) (cm : List (String × List (String × Nat))) (tid : String),
      ((((rs.foldl countStep cm).find? (fun p => decide (p.1 = tid))).map (·.2)
          |>.getD []).map Prod.snd).sum =
      (((lookupMap cm tid).getD []).map Prod.snd).sum +
        (rs.filter (fun r => decide (r.to_law_id = some tid))).length := by
  intro rs
  induction rs with
  | nil =>
    intro cm tid
    simp [lookupMap]
  | cons r rs ih =>
    intro cm tid
    rw [List.foldl_cons, List.filter_cons]
    match hto : r.to_law_id with
    | none =>
      have hstep : countStep cm r = cm := by rw [countStep, hto]
      rw [hstep, ih cm tid]
      simp [hto]
    | some toId =>
      have hstep : countStep cm r =
          mapSet cm toId
            (mapSet ((lookupMap cm toId).getD []) r.from_law_id
              (((lookupMap ((lookupMap cm toId).getD []) r.from_law_id).getD 0) + 1)) := by
        rw [countStep, hto]
      rw [hstep, ih _ tid]
      by_cases htid : tid = toId
      · subst htid
        rw [lookupMap_mapSet_self]
        simp only [Option.getD_some]
        rw [mapSet_bump_sum]
        simp only [decide_eq_true_eq, if_true, List.length_cons]
        omega
      · rw [lookupMap_mapSet_ne _ _ _ _ htid]
        have hne : ¬ (some toId = some tid) := by
          intro hc
          exact htid (Option.some.inj hc).symm
        simp [hne]

theorem countStep_keys_nodup (cm : List (String × List (String × Nat))) (r : Reference)
    (h : (cm.map Prod.fst).Nodup) : ((countStep cm r).map Prod.fst).Nodup := by
  rw [countStep]
  match r.to_law_id with
  | none => exact h
  | some toId => exact mapSet_keys_nodup cm toId _ h

theorem buildCountMap_keys_nodup (references : List Reference) :
    ((buildCountMap references).map Prod.fst).Nodup := by
  rw [buildCountMap_eq_foldl]
  have key : ∀ (rs : List Reference) (cm : List (String × List (String × Nat))),
      (cm.map Prod.fst).Nodup → ((rs.foldl countStep cm).map Prod.fst).Nodup := by
    intro rs
    induction rs with
    | nil => intro cm h; exact h
    | cons r rs ih =>
      intro cm h
      rw [List.foldl_cons]
      exact ih _ (countStep_keys_nodup cm r h)
  exact key references [] (by simp)

theorem buildCountMap_from_keys (references : List Reference) (Q : String → Prop)
    (hfrom : ∀ r ∈ references, Q r.from_law_id) :
    ∀ p ∈ buildCountMap references, ∀ kv ∈ p.2, Q kv.1 := by
  rw [buildCountMap_eq_foldl]
  have key : ∀ (rs : List Reference) (cm : List (String × List (String × Nat))),
      (∀ r ∈ rs, Q r.from_law_id) →
      (∀ p ∈ cm, ∀ kv ∈ p.2, Q kv.1) →
      ∀ p ∈ rs.foldl countStep cm, ∀ kv ∈ p.2, Q kv.1 := by
    intro rs
    induction rs with
    | nil => intro cm _ hcm p hp; exact hcm p hp
    | cons r rs ih =>
      intro cm hrs hcm p hp
      rw [List.foldl_cons] at hp
      refine ih _ (fun r' h => hrs r' (List.mem_cons_of_mem _ h)) ?_ p hp
      intro q hq kv hkv
      rw [countStep] at hq
      match hto : r.to_law_id with
      | none =>
        rw [hto] at hq
        exact hcm q hq kv hkv
      | some toId =>
        rw [hto] at hq
        simp only at hq
        rcases mapSet_mem _ _ _ _ hq with rfl | hmem
        · rcases mapSet_mem _ _ _ _ hkv with rfl | hkv'
          · exact hrs r (List.mem_cons_self _ _)
          · match hfm : lookupMap cm toId with
            | none =>
              rw [hfm] at hkv'
              simp at hkv'
            | some fm =>
              rw [hfm] at hkv'
              simp only [Option.getD_some] at hkv'
              have hfind : ∃ q', cm.find? (fun p => decide (p.1 = toId)) = some q' ∧ q'.2 = fm := by
                unfold lookupMap at hfm
                match hf : cm.find? (fun p => decide (p.1 = toId)) with
                | none => rw [hf] at hfm; cases hfm
                | some q' =>
                  rw [hf] at hfm
                  exact ⟨q', hf, Option.some.inj hfm⟩
              rcases hfind with ⟨q', hq', hq2⟩
              exact hcm q' (List.mem_of_find?_eq_some hq') kv (hq2.symm ▸ hkv')
        · exact hcm q hmem kv hkv
  exact key references [] hfrom (by simp)

theorem referrersOf_sum (laws : List LawIndex) (fm : List (String × Nat))
    (hkeys : ∀ kv ∈ fm, kv.1 ∈ laws.map LawIndex.id) :
    ((referrersOf laws fm).map Referrer.count).sum = (fm.map Prod.snd).sum := by
  unfold referrersOf
  have key : ∀ (l : List (String × Nat)) (acc : List Referrer),
      (∀ kv ∈ l, kv.1 ∈ laws.map LawIndex.id) →
      ((l.foldl
        (fun acc kv =>
          match laws.find? (fun lw => decide (lw.id = kv.1)) with
          | some fromLaw => acc ++ [⟨kv.1, fromLaw.title, kv.2⟩]
          | none => acc) acc).map Referrer.count).sum =
      (acc.map Referrer.count).sum + (l.map Prod.snd).sum := by
    intro l
    induction l with
    | nil => intro acc _; simp
    | cons kv l ih =>
      intro acc hl
      rw [List.foldl_cons]
      have hmem : kv.1 ∈ laws.map LawIndex.id := hl kv (List.mem_cons_self _ _)
      rcases List.mem_map.mp hmem with ⟨lw, hlw, hid⟩
      have hfind : (laws.find? (fun lw => decide (lw.id = kv.1))).isSome := by
        rw [List.find?_isSome]
        exact ⟨lw, hlw, by simp [hid]⟩
      match hf : laws.find? (fun lw => decide (lw.id = kv.1)) with
      | none => rw [hf] at hfind; cases hfind
      | some fromLaw =>
        simp only [hf]
        rw [ih _ (fun kv' h => hl kv' (List.mem_cons_of_mem _ h))]
        simp [Nat.add_assoc, Nat.add_comm, Nat.add_left_comm]
  rw [key fm [] hkeys]
  simp

theorem buildBacklinks_eq (references : List Reference) (laws : List LawIndex) :
    buildBacklinks references laws =
      (buildCountMap references).foldl (updStep laws) (laws.foldl seedStep []) := by
  rfl

theorem seed_lookup (L : LawIndex) :
    ∀ (ls : List LawIndex) (m : List (String × BacklinkEntry)),
      ((∃ e, lookupMap m L.id = some e ∧ e.referenced_by = []) ∨ L ∈ ls) →
      ∃ e, lookupMap (ls.foldl seedStep m) L.id = some e ∧ e.referenced_by = [] := by
  intro ls
  induction ls with
  | nil =>
    intro m h
    rcases h with h | h
    · exact h
    · cases h
  | cons a ls ih =>
    intro m h
    rw [List.foldl_cons]
    refine ih _ ?_
    by_cases hid : a.id = L.id
    · exact Or.inl ⟨⟨a.id, a.title, []⟩, by rw [seedStep, hid, lookupMap_mapSet_self], rfl⟩
    · rcases h with ⟨e, he, hrb⟩ | h
      · exact Or.inl ⟨e, by rw [seedStep, lookupMap_mapSet_ne _ _ _ _ (fun hc => hid hc.symm)]; exact he, hrb⟩
      · rcases List.mem_cons.mp h with rfl | h'
        · exact absurd rfl hid
        · exact Or.inr h'

theorem updFold_untouched (laws : List LawIndex) :
    ∀ (cmList : List (String × List (String × Nat))) (m : List (String × BacklinkEntry))
      (tid : String), tid ∉ cmList.map Prod.fst →
      lookupMap (cmList.foldl (updStep laws) m) tid = lookupMap m tid := by
  intro cmList
  induction cmList with
  | nil => intro m tid _; rfl
  | cons kv cmList ih =>
    intro m tid htid
    rw [List.map_cons] at htid
    have h1 : tid ≠ kv.1 := fun hc => htid (hc ▸ List.mem_cons_self _ _)
    have h2 : tid ∉ cmList.map Prod.fst := fun hc => htid (List.mem_cons_of_mem _ hc)
    rw [List.foldl_cons, ih _ tid h2]
    rw [updStep]
    match lookupMap m kv.1 with
    | none => rfl
    | some entry => exact lookupMap_mapSet_ne _ _ _ _ h1

theorem updFold_update (laws : List LawIndex) :
    ∀ (cmList : List (String × List (String × Nat))) (m : List (String × BacklinkEntry))
      (tid : String) (fm : List (String × Nat)),
      (cmList.map Prod.fst).Nodup → (tid, fm) ∈ cmList →
      (∃ e0, lookupMap m tid = some e0) →
      ∃ e, lookupMap (cmList.foldl (updStep laws) m) tid = some e ∧
        e.referenced_by = List.insertionSort referrerOrder (referrersOf laws fm) := by
  intro cmList
  induction cmList with
  | nil =>
    intro m tid fm _ hmem _
    cases hmem
  | cons kv cmList ih =>
    intro m tid fm hnd hmem hex
    rw [List.map_cons, List.nodup_cons] at hnd
    rw [List.foldl_cons]
    rcases List.mem_cons.mp hmem with rfl | hmem'
    · -- the head is the entry for `tid`
      have htid : tid ∉ cmList.map Prod.fst := hnd.1
      rw [updFold_untouched laws cmList _ tid htid]
      rcases hex with ⟨e0, he0⟩
      rw [updStep]
      simp only [he0]
      exact ⟨_, lookupMap_mapSet_self _ _ _, rfl⟩
    · have h1 : kv.1 ≠ tid := by
        intro hc
        exact hnd.1 (hc ▸ List.mem_map.mpr ⟨(tid, fm), hmem', rfl⟩)
      refine ih _ tid fm hnd.2 hmem' ?_
      rcases hex with ⟨e0, he0⟩
      rw [updStep]
      match lookupMap m kv.1 with
      | none => exact ⟨e0, he0⟩
      | some entry =>
        exact ⟨e0, by rw [lookupMap_mapSet_ne _ _ _ _ (fun hc => h1 hc.symm)]; exact he0⟩

/-- Claim C7.  Over any registry and any reference list whose `from_law_id`s
all occur in the registry, `buildBacklinks` has an entry for every registry
law (zero-reference laws keep an empty referrer list, so the sum is `0`),
the entry's `referenced_by` is sorted descending by `count`, and the counts
sum to the number of references targeting that law. -/
theorem buildBacklinks_complete_sorted_sum
    (references : List Reference) (laws : List LawIndex)
    (hfrom : ∀ r ∈ references, r.from_law_id ∈ laws.map LawIndex.id)
    (L : LawIndex) (hL : L ∈ laws) :
    ∃ e : BacklinkEntry,
      lookupMap (buildBacklinks references laws) L.id = some e ∧
      e.referenced_by.Pairwise (fun a b => b.count ≤ a.count) ∧
      (e.referenced_by.map Referrer.count).sum =
        (references.filter (fun r => decide (r.to_law_id = some L.id))).length := by
  rw [buildBacklinks_eq]
  have hseed : ∃ e, lookupMap (laws.foldl seedStep []) L.id = some e ∧ e.referenced_by = [] :=
    seed_lookup L laws [] (Or.inr hL)
  have hsum := countStep_foldl_sum references [] L.id
  rw [← buildCountMap_eq_foldl] at hsum
  simp only [lookupMap, List.find?_nil, Option.map_none', Option.getD_none,
    List.map_nil, List.sum_nil, Nat.zero_add] at hsum
  match hcm : lookupMap (buildCountMap references) L.id with
  | none =>
    -- no reference targets L: the seeded empty entry survives untouched
    have hnotin : L.id ∉ (buildCountMap references).map Prod.fst := by
      intro hc
      rcases List.mem_map.mp hc with ⟨p, hp, hfst⟩
      have : (buildCountMap references).find? (fun q => decide (q.1 = L.id)) ≠ none := by
        intro he
        rw [List.find?_eq_none] at he
        exact he p hp (by simp [hfst])
      unfold lookupMap at hcm
      match hf : (buildCountMap references).find? (fun q => decide (q.1 = L.id)) with
      | some q => rw [hf] at hcm; cases hcm
      | none => exact this hf
    rcases hseed with ⟨e, he, hrb⟩
    refine ⟨e, ?_, ?_, ?_⟩
    · rw [updFold_untouched laws _ _ _ hnotin]
      exact he
    · rw [hrb]; exact List.Pairwise.nil
    · rw [hrb]
      have hcm' : Option.map (fun x => x.2)
          (List.find? (fun p => decide (p.1 = L.id)) (buildCountMap references)) = none := hcm
      rw [hcm'] at hsum
      simp only [Option.getD_none, List.map_nil, List.sum_nil] at hsum
      simp [← hsum]
  | some fm =>
    -- L's referrer map is attached, sorted
    have hpair : ∃ q, (buildCountMap references).find? (fun p => decide (p.1 = L.id)) = some q ∧
        q.1 = L.id ∧ q.2 = fm := by
      unfold lookupMap at hcm
      match hf : (buildCountMap references).find? (fun p => decide (p.1 = L.id)) with
      | none => rw [hf] at hcm; cases hcm
      | some q =>
        rw [hf] at hcm
        have := List.find?_some hf
        exact ⟨q, hf, by simpa using this, Option.some.inj hcm⟩
    rcases hpair with ⟨q, hq, hq1, hq2⟩
    have hmem : (L.id, fm) ∈ buildCountMap references := by
      have := List.mem_of_find?_eq_some hq
      have hqe : q = (L.id, fm) := Prod.ext hq1 hq2
      exact hqe ▸ this
    rcases updFold_update laws (buildCountMap references) _ L.id fm
      (buildCountMap_keys_nodup references) hmem ⟨hseed.choose, hseed.choose_spec.1⟩ with ⟨e, he, hrb⟩
    have hkeys : ∀ kv ∈ fm, kv.1 ∈ laws.map LawIndex.id := by
      intro kv hkv
      exact buildCountMap_from_keys references (· ∈ laws.map LawIndex.id) hfrom _ hmem kv hkv
    refine ⟨e, he, ?_, ?_⟩
    · rw [hrb]
      exact List.sorted_insertionSort referrerOrder _
    · rw [hrb]
      have hperm :
          ((List.insertionSort referrerOrder (referrersOf laws fm)).map Referrer.count).sum =
            ((referrersOf laws fm).map Referrer.count).sum :=
        ((List.perm_insertionSort referrerOrder _).map Referrer.count).sum_eq
      rw [hperm, referrersOf_sum laws fm hkeys]
      have hcm' : Option.map (fun x => x.2)
          (List.find? (fun p => decide (p.1 = L.id)) (buildCountMap references)) = some fm := hcm
      rw [hcm'] at hsum
      simpa using hsum

/-- Witness for `buildBacklinks_complete_sorted_sum`: the singleton reference
list `[refBA]` over registry `regAB` and target law A. -/
theorem buildBacklinks_complete_sorted_sum_witness :
    ∃ e : BacklinkEntry,
      lookupMap (buildBacklinks [refBA] regAB) lawA.id = some e ∧
      e.referenced_by.Pairwise (fun a b => b.count ≤ a.count) ∧
      (e.referenced_by.map Referrer.count).sum =
        (([refBA]).filter (fun r => decide (r.to_law_id = some lawA.id))).length :=
  buildBacklinks_complete_sorted_sum [refBA] regAB (by decide) lawA (by decide)

/-! ## BFS reachability: basic facts -/

theorem lookupDist_mem {α : Type} [DecidableEq α] (δ : List (α × Nat)) (n : α) (d : Nat)
    (h : lookupDist δ n = some d) : (n, d) ∈ δ := by
  unfold lookupDist lookupMap at h
  match hf : δ.find? (fun p => decide (p.1 = n)) with
  | none => rw [hf] at h; cases h
  | some p =>
    rw [hf] at h
    have hp1 : p.1 = n := by simpa using List.find?_some hf
    have hp2 : p.2 = d := Option.some.inj h
    have := List.mem_of_find?_eq_some hf
    rwa [← hp1, ← hp2]

theorem lookupDist_append_some {α : Type} [DecidableEq α] (δ δ' : List (α × Nat)) (n : α)
    (d : Nat) (h : lookupDist δ n = some d) : lookupDist (δ ++ δ') n = some d := by
  unfold lookupDist lookupMap at h ⊢
  rw [List.find?_append]
  match hf : δ.find? (fun p => decide (p.1 = n)) with
  | none => rw [hf] at h; cases h
  | some p =>
    rw [hf] at h
    rw [hf]
    exact h

theorem lookupDist_none_of_no_key {α : Type} [DecidableEq α] (δ : List (α × Nat)) (n : α)
    (h : ∀ p ∈ δ, p.1 ≠ n) : lookupDist δ n = none := by
  unfold lookupDist lookupMap
  rw [List.find?_eq_none.mpr]
  · rfl
  · intro p hp
    simpa using h p hp

theorem lookupDist_append_right {α : Type} [DecidableEq α] (δ δ' : List (α × Nat)) (n : α)
    (h : lookupDist δ n = none) : lookupDist (δ ++ δ') n = lookupDist δ' n := by
  unfold lookupDist lookupMap at h ⊢
  rw [List.find?_append]
  match hf : δ.find? (fun p => decide (p.1 = n)) with
  | some p => rw [hf] at h; cases h
  | none =>
    rw [hf]
    rfl

theorem dOf_self {α : Type} [DecidableEq α] (start : α) (δ : List (α × Nat)) :
    dOf start δ start = some 0 := by
  rw [dOf, if_pos rfl]

theorem dOf_of_ne {α : Type} [DecidableEq α] (start : α) (δ : List (α × Nat)) (v : α)
    (h : v ≠ start) : dOf start δ v = lookupDist δ v := by
  rw [dOf, if_neg h]

theorem dOf_append_some {α : Type} [DecidableEq α] (start : α) (δ δ' : List (α × Nat))
    (v : α) (d : Nat) (h : dOf start δ v = some d) : dOf start (δ ++ δ') v = some d := by
  by_cases hv : v = start
  · subst hv
    rw [dOf_self] at h ⊢
    exact h
  · rw [dOf_of_ne _ _ _ hv] at h ⊢
    exact lookupDist_append_some _ _ _ _ h

theorem dOf_fun {α : Type} [DecidableEq α] (start : α) (δ : List (α × Nat)) (v : α)
    (a b : Nat) (ha : dOf start δ v = some a) (hb : dOf start δ v = some b) : a = b :=
  Option.some.inj (ha.symm.trans hb)

theorem mem_allTargets_of_entry {α : Type} :
    ∀ (adj : Adj α) (p : α × List α), p ∈ adj → ∀ x ∈ p.2, x ∈ allTargets adj := by
  intro adj
  induction adj with
  | nil => intro p hp; cases hp
  | cons a adj ih =>
    intro p hp x hx
    have : allTargets (a :: adj) = a.2 ++ allTargets adj := rfl
    rw [this]
    rcases List.mem_cons.mp hp with rfl | hmem
    · exact List.mem_append.mpr (Or.inl hx)
    · exact List.mem_append.mpr (Or.inr (ih p hmem x hx))

theorem neighborsOf_subset_allTargets {α : Type} [DecidableEq α] (adj : Adj α) (v : α) :
    ∀ x ∈ neighborsOf adj v, x ∈ allTargets adj := by
  intro x hx
  unfold neighborsOf lookupMap at hx
  match hf : adj.find? (fun p => decide (p.1 = v)) with
  | none => rw [hf] at hx; cases hx
  | some p =>
    rw [hf] at hx
    simp only [Option.map_some', Option.getD_some] at hx
    exact mem_allTargets_of_entry adj p (List.mem_of_find?_eq_some hf) x hx

theorem pathLen_of_dOf {α : Type} [DecidableEq α] {adj : Adj α} {maxHops : Option Nat}
    {start : α} {δ : List (α × Nat)}
    (hsound : ∀ p ∈ δ, PathLen adj start p.1 p.2 ∧ 1 ≤ p.2 ∧ inCap maxHops p.2)
    (v : α) (d : Nat) (h : dOf start δ v = some d) : PathLen adj start v d := by
  by_cases hv : v = start
  · subst hv
    rw [dOf_self] at h
    cases Option.some.inj h
    exact PathLen.zero
  · rw [dOf_of_ne _ _ _ hv] at h
    exact (hsound _ (lookupDist_mem δ v d h)).1

theorem inCap_succ_of_not_stop {maxHops : Option Nat} {d : Nat}
    (h : hopStop maxHops d = false) : inCap maxHops (d + 1) := by
  match maxHops with
  | none => exact trivial
  | some m =>
    simp only [hopStop, decide_eq_false_iff_not, Nat.not_le] at h
    exact h

theorem lookupDist_singleton {α : Type} [DecidableEq α] (n : α) (d : Nat) :
    lookupDist [(n, d)] n = some d := by
  unfold lookupDist lookupMap
  simp

theorem bfsMid_discover {α : Type} [DecidableEq α] {adj : Adj α} {maxHops : Option Nat}
    {start id : α} {dv : Nat} (hstop : hopStop maxHops dv = false) {s : BfsState α}
    (hm : BfsMid adj maxHops start id dv s) {n : α}
    (hn : n ∈ neighborsOf adj id) (hnv : n ∉ s.visited) :
    BfsMid adj maxHops start id dv
      ⟨s.queue ++ [(n, dv + 1)], n :: s.visited, s.distances ++ [(n, dv + 1)]⟩ ∧
    dOf start (s.distances ++ [(n, dv + 1)]) n = some (dv + 1) := by
  have hnstart : n ≠ start := fun h => hnv (h ▸ hm.startV)
  have hδn : lookupDist s.distances n = none :=
    lookupDist_none_of_no_key _ _ (fun p hp hc => hnv (hc ▸ (hm.keysV p hp).1))
  have hdOfn : dOf start (s.distances ++ [(n, dv + 1)]) n = some (dv + 1) := by
    rw [dOf_of_ne _ _ _ hnstart, lookupDist_append_right _ _ _ hδn]
    exact lookupDist_singleton n (dv + 1)
  have preserve : ∀ v d, dOf start s.distances v = some d →
      dOf start (s.distances ++ [(n, dv + 1)]) v = some d :=
    fun v d h => dOf_append_some start _ _ v d h
  have backTransfer : ∀ v ∈ s.visited, ∀ dv',
      dOf start (s.distances ++ [(n, dv + 1)]) v = some dv' →
      dOf start s.distances v = some dv' := by
    intro v hv dv' hdv'
    rcases hm.visD v hv with ⟨d₀, hd₀⟩
    have := preserve v d₀ hd₀
    rw [dOf_fun start _ v dv' d₀ hdv' this]
    exact hd₀
  have hnq : n ∉ s.queue.map Prod.fst := by
    intro hc
    rcases List.mem_map.mp hc with ⟨p, hp, hfst⟩
    exact hnv (hfst ▸ (hm.qVis p hp).1)
  have hidn : id ≠ n := fun h => hnv (h ▸ hm.hid)
  refine ⟨⟨?_, ?_, ?_, ?_, ?_, ?_, ?_, ?_, ?_, ?_, ?_, ?_, ?_, ?_, ?_⟩, hdOfn⟩
  · exact List.nodup_cons.mpr ⟨hnv, hm.nodupV⟩
  · exact List.mem_cons_of_mem _ hm.startV
  · intro p hp
    rcases List.mem_append.mp hp with h | h
    · exact ⟨List.mem_cons_of_mem _ (hm.keysV p h).1, (hm.keysV p h).2⟩
    · rcases List.mem_singleton.mp h with rfl
      exact ⟨List.mem_cons_self _ _, hnstart⟩
  · intro v hv
    rcases List.mem_cons.mp hv with rfl | hv'
    · exact ⟨dv + 1, hdOfn⟩
    · rcases hm.visD v hv' with ⟨d₀, hd₀⟩
      exact ⟨d₀, preserve v d₀ hd₀⟩
  · intro p hp
    rcases List.mem_append.mp hp with h | h
    · exact hm.sound p h
    · rcases List.mem_singleton.mp h with rfl
      refine ⟨PathLen.succ (pathLen_of_dOf hm.sound id dv hm.hidD) hn, ?_, ?_⟩
      · exact Nat.succ_le_succ (Nat.zero_le _)
      · exact inCap_succ_of_not_stop hstop
  · intro p hp
    rcases List.mem_append.mp hp with h | h
    · exact ⟨List.mem_cons_of_mem _ (hm.qVis p h).1, preserve _ _ (hm.qVis p h).2⟩
    · rcases List.mem_singleton.mp h with rfl
      exact ⟨List.mem_cons_self _ _, hdOfn⟩
  · rw [List.map_append]
    rw [List.nodup_append]
    exact ⟨hm.qNodup, by simp, fun a ha hb => by
      rcases List.mem_singleton.mp hb with rfl
      exact hnq ha⟩
  · rw [List.pairwise_append]
    refine ⟨hm.qSorted, by simp, ?_⟩
    intro p hp x hx
    rcases List.mem_singleton.mp hx with rfl
    exact (hm.qBound p hp).2
  · intro p hp
    rcases List.mem_append.mp hp with h | h
    · exact hm.qBound p h
    · rcases List.mem_singleton.mp h with rfl
      exact ⟨Nat.le_succ dv, Nat.le_refl _⟩
  · exact List.mem_cons_of_mem _ hm.hid
  · rw [List.map_append]
    intro hc
    rcases List.mem_append.mp hc with h | h
    · exact hm.hidq h
    · exact hidn (by simpa using h)
  · exact preserve _ _ hm.hidD
  · intro v hv hvq hvid dv' hdv' hst w hw
    have hvn : v ≠ n := by
      intro hc
      refine hvq ?_
      rw [List.map_append]
      exact List.mem_append.mpr (Or.inr (by simp [hc]))
    have hv' : v ∈ s.visited := by
      rcases List.mem_cons.mp hv with rfl | h
      · exact absurd rfl hvn
      · exact h
    have hvq' : v ∉ s.queue.map Prod.fst := by
      intro hc
      refine hvq ?_
      rw [List.map_append]
      exact List.mem_append.mpr (Or.inl hc)
    have hdv : dOf start s.distances v = some dv' := backTransfer v hv' dv' hdv'
    rcases hm.procClosed v hv' hvq' hvid dv' hdv hst w hw with ⟨dw, hdw, hle⟩
    exact ⟨dw, preserve w dw hdw, hle⟩
  · intro v hv hvq dv' hdv'
    have hvn : v ≠ n := by
      intro hc
      refine hvq ?_
      rw [List.map_append]
      exact List.mem_append.mpr (Or.inr (by simp [hc]))
    have hv' : v ∈ s.visited := by
      rcases List.mem_cons.mp hv with rfl | h
      · exact absurd rfl hvn
      · exact h
    have hvq' : v ∉ s.queue.map Prod.fst := by
      intro hc
      refine hvq ?_
      rw [List.map_append]
      exact List.mem_append.mpr (Or.inl hc)
    exact hm.procLe v hv' hvq' dv' (backTransfer v hv' dv' hdv')
  · intro v hv
    rcases List.mem_cons.mp hv with rfl | h
    · exact List.mem_cons_of_mem _ (neighborsOf_subset_allTargets adj id v hn)
    · exact hm.visU v h

theorem bfsExpand_spec {α : Type} [DecidableEq α] {adj : Adj α} {maxHops : Option Nat}
    {start id : α} {dv : Nat} (hstop : hopStop maxHops dv = false) :
    ∀ (ns : List α) (s : BfsState α),
      BfsMid adj maxHops start id dv s →
      (∀ n ∈ ns, n ∈ neighborsOf adj id) →
      BfsMid adj maxHops start id dv (bfsExpand dv ns s) ∧
      (∀ n ∈ ns, ∃ dn, dOf start (bfsExpand dv ns s).distances n = some dn ∧ dn ≤ dv + 1) ∧
      (∀ v d, dOf start s.distances v = some d →
        dOf start (bfsExpand dv ns s).distances v = some d) ∧
      (bfsExpand dv ns s).queue.length + s.visited.length =
        s.queue.length + (bfsExpand dv ns s).visited.length ∧
      s.visited.length ≤ (bfsExpand dv ns s).visited.length := by
  intro ns
  induction ns with
  | nil =>
    intro s hm _
    rw [bfsExpand]
    exact ⟨hm, by simp, fun v d h => h, rfl, Nat.le_refl _⟩
  | cons n ns ih =>
    intro s hm hns
    have hn : n ∈ neighborsOf adj id := hns n (List.mem_cons_self _ _)
    have hns' : ∀ x ∈ ns, x ∈ neighborsOf adj id := fun x h => hns x (List.mem_cons_of_mem _ h)
    by_cases hnv : n ∈ s.visited
    · rw [bfsExpand, if_pos hnv]
      rcases ih s hm hns' with ⟨hmid, hrec, hpres, hlen, hlemono⟩
      refine ⟨hmid, ?_, hpres, hlen, hlemono⟩
      intro x hx
      rcases List.mem_cons.mp hx with rfl | hx'
      · -- `x` was already visited: its assigned distance is at most `dv + 1`
        have hd : ∃ d, dOf start s.distances x = some d ∧ d ≤ dv + 1 := by
          by_cases hq : x ∈ s.queue.map Prod.fst
          · rcases List.mem_map.mp hq with ⟨p, hp, rfl⟩
            exact ⟨p.2, (hm.qVis p hp).2, (hm.qBound p hp).2⟩
          · rcases hm.visD x hnv with ⟨d₀, hd₀⟩
            exact ⟨d₀, hd₀, Nat.le_succ_of_le (hm.procLe x hnv hq d₀ hd₀)⟩
        rcases hd with ⟨d, hd, hle⟩
        exact ⟨d, hpres x d hd, hle⟩
      · exact hrec x hx'
    · rw [bfsExpand, if_neg hnv]
      rcases bfsMid_discover hstop hm hn hnv with ⟨hm', hdOfn⟩
      rcases ih _ hm' hns' with ⟨hmid, hrec, hpres, hlen, hlemono⟩
      refine ⟨hmid, ?_, ?_, ?_, ?_⟩
      · intro x hx
        rcases List.mem_cons.mp hx with rfl | hx'
        · exact ⟨dv + 1, hpres x (dv + 1) hdOfn, Nat.le_refl _⟩
        · exact hrec x hx'
      · intro v d h
        exact hpres v d (dOf_append_some start _ _ v d h)
      · have e1 : (s.queue ++ [(n, dv + 1)]).length = s.queue.length + 1 := by simp
        have e2 : (n :: s.visited).length = s.visited.length + 1 := by simp
        dsimp only at hlen hlemono
        omega
      · have e2 : (n :: s.visited).length = s.visited.length + 1 := by simp
        dsimp only at hlemono
        omega

theorem bfsInv_pop_mid {α : Type} [DecidableEq α] {adj : Adj α} {maxHops : Option Nat}
    {start : α} {id : α} {dv : Nat} {rest : List (α × Nat)} {V : List α} {δ : List (α × Nat)}
    (hinv : BfsInv adj maxHops start ⟨(id, dv) :: rest, V, δ⟩) :
    BfsMid adj maxHops start id dv ⟨rest, V, δ⟩ := by
  have hhead : (id, dv) ∈ (id, dv) :: rest := List.mem_cons_self _ _
  have hidV : id ∈ V := (hinv.qVis _ hhead).1
  have hidD : dOf start δ id = some dv := (hinv.qVis _ hhead).2
  have hq := hinv.qNodup
  rw [List.map_cons, List.nodup_cons] at hq
  refine ⟨hinv.nodupV, hinv.startV, hinv.keysV, hinv.visD, hinv.sound, ?_, hq.2, ?_, ?_,
    hidV, hq.1, hidD, ?_, ?_, hinv.visU⟩
  · intro p hp
    exact hinv.qVis p (List.mem_cons_of_mem _ hp)
  · exact List.Pairwise.of_cons hinv.qSorted
  · intro p hp
    constructor
    · exact (List.pairwise_cons.mp hinv.qSorted).1 p hp
    · exact hinv.qSpread _ hhead p (List.mem_cons_of_mem _ hp)
  · intro v hv hvq hvid dv' hdv' hst w hw
    have hvq' : v ∉ ((id, dv) :: rest).map Prod.fst := by
      rw [List.map_cons]
      intro hc
      rcases List.mem_cons.mp hc with h | h
      · exact hvid h
      · exact hvq h
    exact hinv.procClosed v hv hvq' dv' hdv' hst w hw
  · intro v hv hvq dv' hdv'
    by_cases hvid : v = id
    · subst hvid
      rw [dOf_fun start δ v dv' dv hdv' hidD]
    · have hvq' : v ∉ ((id, dv) :: rest).map Prod.fst := by
        rw [List.map_cons]
        intro hc
        rcases List.mem_cons.mp hc with h | h
        · exact hvid h
        · exact hvq h
      exact hinv.procLe v hv hvq' dv' hdv' _ hhead

theorem bfsMid_to_inv {α : Type} [DecidableEq α] {adj : Adj α} {maxHops : Option Nat}
    {start : α} {id : α} {dv : Nat} {s : BfsState α}
    (hm : BfsMid adj maxHops start id dv s)
    (hcl : ∀ w ∈ neighborsOf adj id, ∃ dw, dOf start s.distances w = some dw ∧ dw ≤ dv + 1) :
    BfsInv adj maxHops start s := by
  refine ⟨hm.nodupV, hm.startV, hm.keysV, hm.visD, hm.sound, hm.qVis, hm.qNodup, hm.qSorted,
    ?_, ?_, ?_, hm.visU⟩
  · intro p hp q hq
    exact Nat.le_trans (hm.qBound q hq).2 (Nat.succ_le_succ (hm.qBound p hp).1)
  · intro v hv hvq dv' hdv' hst w hw
    by_cases hvid : v = id
    · subst hvid
      rw [dOf_fun start s.distances v dv' dv hdv' hm.hidD]
      exact hcl w hw
    · exact hm.procClosed v hv hvq hvid dv' hdv' hst w hw
  · intro v hv hvq dv' hdv' q hq
    exact Nat.le_trans (hm.procLe v hv hvq dv' hdv') (hm.qBound q hq).1

theorem bfsInv_step_stop {α : Type} [DecidableEq α] {adj : Adj α} {maxHops : Option Nat}
    {start : α} {id : α} {dv : Nat} {rest : List (α × Nat)} {V : List α} {δ : List (α × Nat)}
    (hinv : BfsInv adj maxHops start ⟨(id, dv) :: rest, V, δ⟩)
    (hstop : hopStop maxHops dv = true) :
    BfsInv adj maxHops start ⟨rest, V, δ⟩ := by
  have hmid := bfsInv_pop_mid hinv
  refine ⟨hmid.nodupV, hmid.startV, hmid.keysV, hmid.visD, hmid.sound, hmid.qVis, hmid.qNodup,
    hmid.qSorted, ?_, ?_, ?_, hmid.visU⟩
  · intro p hp q hq
    exact Nat.le_trans (hmid.qBound q hq).2 (Nat.succ_le_succ (hmid.qBound p hp).1)
  · intro v hv hvq dv' hdv' hst w hw
    by_cases hvid : v = id
    · subst hvid
      rw [dOf_fun start δ v dv' dv hdv' hmid.hidD] at hst
      rw [hstop] at hst
      cases hst
    · exact hmid.procClosed v hv hvq hvid dv' hdv' hst w hw
  · intro v hv hvq dv' hdv' q hq
    exact Nat.le_trans (hmid.procLe v hv hvq dv' hdv') (hmid.qBound q hq).1

theorem bfsInv_final {α : Type} [DecidableEq α] {adj : Adj α} {maxHops : Option Nat}
    {start : α} {V : List α} {δ : List (α × Nat)}
    (hinv : BfsInv adj maxHops start ⟨[], V, δ⟩) :
    BfsFinal adj maxHops start δ := by
  constructor
  · intro p hp
    exact ⟨(hinv.keysV p hp).2, hinv.sound p hp⟩
  · intro v dv hdv hst w hw
    have hv : v ∈ V := by
      by_cases hvs : v = start
      · exact hvs ▸ hinv.startV
      · rw [dOf_of_ne _ _ _ hvs] at hdv
        exact (hinv.keysV _ (lookupDist_mem δ v dv hdv)).1
    exact hinv.procClosed v hv (by simp) dv hdv hst w hw

theorem bfsLoop_final {α : Type} [DecidableEq α] (adj : Adj α) (maxHops : Option Nat)
    (start : α) :
    ∀ (fuel : Nat) (s : BfsState α), BfsInv adj maxHops start s →
      s.queue.length + ((bfsUniverse start adj).length - s.visited.length) ≤ fuel →
      BfsFinal adj maxHops start (bfsLoop adj maxHops fuel s) := by
  intro fuel
  induction fuel with
  | zero =>
    intro s hinv hfuel
    have hq : s.queue = [] := by
      have : s.queue.length = 0 := by omega
      exact List.length_eq_zero.mp this
    rw [bfsLoop]
    match s, hq with
    | ⟨_, V, δ⟩, rfl => exact bfsInv_final hinv
  | succ fuel ih =>
    intro s hinv hfuel
    match s, hinv with
    | ⟨[], V, δ⟩, hinv =>
      rw [bfsLoop]
      exact bfsInv_final hinv
    | ⟨(id, dv) :: rest, V, δ⟩, hinv =>
      rw [bfsLoop]
      dsimp only
      have hUb : V.length ≤ (bfsUniverse start adj).length := by
        have hsub : V ⊆ bfsUniverse start adj := fun v hv => hinv.visU v hv
        exact (hinv.nodupV.subperm hsub).length_le
      match hstop : hopStop maxHops dv with
      | true =>
        rw [if_pos rfl]
        refine ih _ (bfsInv_step_stop hinv hstop) ?_
        simp only [List.length_cons] at hfuel
        dsimp only
        omega
      | false =>
        rw [if_neg (by simp)]
        have hmid := bfsInv_pop_mid hinv
        rcases bfsExpand_spec hstop (neighborsOf adj id) ⟨rest, V, δ⟩ hmid (fun n h => h) with
          ⟨hmid', hcl, _, hlen, hmono⟩
        have hinv' := bfsMid_to_inv hmid' (fun w hw => hcl w hw)
        refine ih _ hinv' ?_
        have hUb' : (bfsExpand dv (neighborsOf adj id) ⟨rest, V, δ⟩).visited.length ≤
            (bfsUniverse start adj).length := by
          have hsub : (bfsExpand dv (neighborsOf adj id) ⟨rest, V, δ⟩).visited ⊆
              bfsUniverse start adj := fun v hv => hmid'.visU v hv
          exact (hmid'.nodupV.subperm hsub).length_le
        simp only [List.length_cons] at hfuel
        dsimp only at hlen hmono
        omega

theorem bfsInv_init {α : Type} [DecidableEq α] (adj : Adj α) (maxHops : Option Nat)
    (start : α) :
    BfsInv adj maxHops start ⟨[(start, 0)], [start], []⟩ := by
  refine ⟨?_, ?_, ?_, ?_, ?_, ?_, ?_, ?_, ?_, ?_, ?_, ?_⟩
  · exact List.nodup_singleton start
  · exact List.mem_singleton.mpr rfl
  · intro p hp; cases hp
  · intro v hv
    rcases List.mem_singleton.mp hv with rfl
    exact ⟨0, dOf_self _ _⟩
  · intro p hp; cases hp
  · intro p hp
    rcases List.mem_singleton.mp hp with rfl
    exact ⟨List.mem_singleton.mpr rfl, dOf_self _ _⟩
  · simp
  · simp
  · intro p hp q hq
    rcases List.mem_singleton.mp hp with rfl
    rcases List.mem_singleton.mp hq with rfl
    omega
  · intro v hv hvq
    rcases List.mem_singleton.mp hv with rfl
    exact absurd (by simp) hvq
  · intro v hv hvq
    rcases List.mem_singleton.mp hv with rfl
    exact absurd (by simp) hvq
  · intro v hv
    rcases List.mem_singleton.mp hv with rfl
    exact List.mem_cons_self _ _

theorem computeReachability_final {α : Type} [DecidableEq α] (startId : α) (outgoing : Adj α)
    (maxHops : Option Nat) :
    BfsFinal outgoing maxHops startId (computeReachability startId outgoing maxHops) := by
  rw [computeReachability]
  refine bfsLoop_final outgoing maxHops startId _ _ (bfsInv_init outgoing maxHops startId) ?_
  dsimp only
  simp only [List.length_singleton]
  omega

theorem bfsFinal_reaches {α : Type} [DecidableEq α] {adj : Adj α} {maxHops : Option Nat}
    {start : α} {δ : List (α × Nat)} (hf : BfsFinal adj maxHops start δ) :
    ∀ (p : Nat) (v : α), PathLen adj start v p → inCap maxHops p →
      ∃ dv, dOf start δ v = some dv ∧ dv ≤ p := by
  have key : ∀ (p : Nat) (v : α), PathLen adj start v p →
      ∀ q, p = q → inCap maxHops q → ∃ dv, dOf start δ v = some dv ∧ dv ≤ q := by
    intro p v hp
    induction hp with
    | zero =>
      intro q hq _
      exact ⟨0, dOf_self _ _, hq ▸ Nat.zero_le _⟩
    | succ hu hedge ihu =>
      rename_i u v' n
      intro q hq hcap
      subst hq
      have hcapn : inCap maxHops n := by
        match maxHops, hcap with
        | none, _ => exact trivial
        | some m, hcap => exact Nat.le_of_succ_le hcap
      rcases ihu n rfl hcapn with ⟨du, hdu, hdule⟩
      match hstop : hopStop maxHops du with
      | false =>
        rcases hf.closed u du hdu hstop v' hedge with ⟨dw, hdw, hdwle⟩
        exact ⟨dw, hdw, Nat.le_trans hdwle (Nat.succ_le_succ hdule)⟩
      | true =>
        exfalso
        match maxHops, hstop, hcap with
        | some m, hstop, hcap =>
          simp only [hopStop, decide_eq_true_eq] at hstop
          simp only [inCap] at hcap
          omega
  intro p v hp hcap
  exact key p v hp p rfl hcap

/-- Full characterisation of the BFS result: a node is assigned distance `d`
exactly when it is not the start node, `d` is the length of a shortest
directed walk from the start, and `d` is within the hop cap. -/
theorem computeReachability_char {α : Type} [DecidableEq α] (startId : α) (outgoing : Adj α)
    (maxHops : Option Nat) (n : α) (d : Nat) :
    lookupDist (computeReachability startId outgoing maxHops) n = some d ↔
      (n ≠ startId ∧ PathLen outgoing startId n d ∧
        (∀ d', PathLen outgoing startId n d' → d ≤ d') ∧ inCap maxHops d) := by
  have hf := computeReachability_final startId outgoing maxHops
  constructor
  · intro h
    have hmem := lookupDist_mem _ n d h
    rcases hf.sound _ hmem with ⟨hne, hpath, _, hcap⟩
    refine ⟨hne, hpath, ?_, hcap⟩
    intro d' hd'
    by_cases hcap' : inCap maxHops d'
    · rcases bfsFinal_reaches hf d' n hd' hcap' with ⟨dv, hdv, hdvle⟩
      have hdn : dOf startId (computeReachability startId outgoing maxHops) n = some d := by
        rw [dOf_of_ne _ _ _ hne]
        exact h
      rw [dOf_fun _ _ _ _ _ hdn hdv]
      exact hdvle
    · cases maxHops with
      | none => exact absurd trivial hcap'
      | some m =>
        simp only [inCap, Nat.not_le] at hcap hcap'
        omega
  · rintro ⟨hne, hpath, hmin, hcap⟩
    rcases bfsFinal_reaches hf d n hpath hcap with ⟨dv, hdv, hdvle⟩
    rw [dOf_of_ne _ _ _ hne] at hdv
    have hpathdv : PathLen outgoing startId n dv :=
      (hf.sound _ (lookupDist_mem _ n dv hdv)).2.1
    have : d = dv := Nat.le_antisymm (hmin dv hpathdv) hdvle
    rw [this]
    exact hdv

/-- The reverse-reachability BFS is literally the same loop over the reverse
adjacency. -/
theorem computeReverseReachability_eq {α : Type} [DecidableEq α] (targetId : α)
    (incoming : Adj α) (maxHops : Option Nat) :
    computeReverseReachability targetId incoming maxHops =
      computeReachability targetId incoming maxHops := rfl

/-- Claim C3.  Every hop count the BFS records is the length of a shortest
directed walk from the source (first discovery through a FIFO queue and a
visited set), and the recorded hop counts satisfy the triangle inequality:
when `b` is recorded at hop `h` and `c` is a direct successor of `b`, any
hop count recorded for `c` is at most `h + 1`. -/
theorem computeReachability_shortest_triangle {α : Type} [DecidableEq α]
    (adj : Adj α) (startId : α) (maxHops : Option Nat) (b : α) (h : Nat)
    (hb : lookupDist (computeReachability startId adj maxHops) b = some h) :
    (PathLen adj startId b h ∧ ∀ d', PathLen adj startId b d' → h ≤ d') ∧
    (∀ (c : α) (hc : Nat), c ∈ neighborsOf adj b →
      lookupDist (computeReachability startId adj maxHops) c = some hc → hc ≤ h + 1) := by
  rcases (computeReachability_char startId adj maxHops b h).mp hb with ⟨_, hpath, hmin, _⟩
  refine ⟨⟨hpath, hmin⟩, ?_⟩
  intro c hc hedge hlc
  rcases (computeReachability_char startId adj maxHops c hc).mp hlc with ⟨_, _, hminc, _⟩
  exact hminc (h + 1) (PathLen.succ hpath hedge)

/-- Witness for `computeReachability_shortest_triangle`: on the edge list
`A→B`, `B→C`, node `C` is recorded at hop `2` from `A`, which is a shortest
walk, minimal, and triangle-consistent. -/
theorem computeReachability_shortest_triangle_witness :
    (PathLen abcAdj "A" "C" 2 ∧ ∀ d', PathLen abcAdj "A" "C" d' → 2 ≤ d') ∧
    (∀ (c : String) (hc : Nat), c ∈ neighborsOf abcAdj "C" →
      lookupDist (computeReachability "A" abcAdj (some 50)) c = some hc → hc ≤ 2 + 1) :=
  computeReachability_shortest_triangle abcAdj "A" (some 50) "C" 2 (by decide)

/-- Claim C4, counterexample.  In exhaustive mode (`build_graph_multi.ts`) the
worker message has no `maxHops` field, so the hop check compares against
`undefined` and never fires: on the 52-node path the BFS records node `51`
at hop `51 > 50`, beyond the claimed default cap. -/
theorem exhaustive_mode_uncapped_counterexample :
    lookupDist (computeReachability 0 pathAdj exhaustiveModeMaxHops) 51 = some 51 ∧
      50 < 51 := by
  constructor
  · decide
  · decide

/-- Claim C4, amended.  When a numeric hop cap `m` *is* supplied (landmark
mode, `build_full_graph.ts`, cap `50`), no node is recorded at a hop count
greater than `m`; in exhaustive mode (`build_graph_multi.ts`) no cap is
passed and hop counts are unbounded. -/
theorem computeReachability_capped {α : Type} [DecidableEq α] (adj : Adj α) (startId : α)
    (m : Nat) (n : α) (d : Nat)
    (h : lookupDist (computeReachability startId adj (some m)) n = some d) : d ≤ m :=
  ((computeReachability_char startId adj (some m) n d).mp h).2.2.2

/-- Witness for `computeReachability_capped`: node `C` is recorded at hop `2`
under cap `50`, and the theorem bounds it by the cap. -/
theorem computeReachability_capped_witness :
    lookupDist (computeReachability "A" abcAdj (some 50)) "C" = some 2 ∧ 2 ≤ 50 :=
  ⟨by decide, computeReachability_capped abcAdj "A" 50 "C" 2 (by decide)⟩

/-- Claim C5.  Raising the hop cap only extends the result: every node recorded
under cap `H < H'` is recorded under `H'` with the same hop count (so the
recorded node set is monotone and distances agree wherever both exist). -/
theorem computeReachability_cap_monotone {α : Type} [DecidableEq α] (adj : Adj α)
    (startId : α) (H H' : Nat) (hHH : H < H') (n : α) (d : Nat)
    (h : lookupDist (computeReachability startId adj (some H)) n = some d) :
    lookupDist (computeReachability startId adj (some H')) n = some d := by
  rcases (computeReachability_char startId adj (some H) n d).mp h with ⟨hne, hpath, hmin, hcap⟩
  refine (computeReachability_char startId adj (some H') n d).mpr ⟨hne, hpath, hmin, ?_⟩
  simp only [inCap] at hcap ⊢
  omega

/-- Witness for `computeReachability_cap_monotone`: the hop count of `C`
under cap `50` carries over verbatim to cap `60`. -/
theorem computeReachability_cap_monotone_witness :
    (50 : Nat) < 60 ∧
      lookupDist (computeReachability "A" abcAdj (some 60)) "C" = some 2 :=
  ⟨by decide, computeReachability_cap_monotone abcAdj "A" 50 60 (by decide) "C" 2 (by decide)⟩

/-- Claim C10.  Neither the forward nor the reverse reachability BFS ever
records the start node itself: it is marked visited before the loop and no
distance entry is created for it, so a law on a citation cycle is never
reported as reachable from itself. -/
theorem computeReachability_start_none {α : Type} [DecidableEq α] (adj : Adj α)
    (startId : α) (maxHops : Option Nat) :
    lookupDist (computeReachability startId adj maxHops) startId = none ∧
    lookupDist (computeReverseReachability startId adj maxHops) startId = none := by
  have key : lookupDist (computeReachability startId adj maxHops) startId = none := by
    match h : lookupDist (computeReachability startId adj maxHops) startId with
    | none => rfl
    | some d =>
      rcases (computeReachability_char startId adj maxHops startId d).mp h with ⟨hne, _, _, _⟩
      exact absurd rfl hne
  exact ⟨key, by rw [computeReverseReachability_eq]; exact key⟩

/-! ## Shortest-path finder (C9) -/

theorem spExpand_sound {α : Type} [DecidableEq α] (adj : Adj α) (fromId toId : α) (id : α)
    (path : List α) (hid : ∃ d, PathLen adj fromId id d) :
    ∀ (ns : List α) (q : List (α × List α)) (vis : List α),
      (∀ n ∈ ns, n ∈ neighborsOf adj id) →
      (∀ e ∈ q, ∃ d, PathLen adj fromId e.1 d) →
      (match spExpand toId path ns q vis with
       | (some _, _, _) => ∃ d, PathLen adj fromId toId d
       | (none, q', _) => ∀ e ∈ q', ∃ d, PathLen adj fromId e.1 d) := by
  intro ns
  induction ns with
  | nil =>
    intro q vis _ hq
    rw [spExpand]
    exact hq
  | cons n ns ih =>
    intro q vis hns hq
    have hn : n ∈ neighborsOf adj id := hns n (List.mem_cons_self _ _)
    have hns' : ∀ x ∈ ns, x ∈ neighborsOf adj id := fun x hx => hns x (List.mem_cons_of_mem _ hx)
    by_cases hto : n = toId
    · rw [spExpand, if_pos hto]
      rcases hid with ⟨d, hd⟩
      exact ⟨d + 1, hto ▸ PathLen.succ hd hn⟩
    · rw [spExpand, if_neg hto]
      by_cases hvis : n ∈ vis
      · rw [if_pos hvis]
        exact ih q vis hns' hq
      · rw [if_neg hvis]
        refine ih _ _ hns' ?_
        intro e he
        rcases List.mem_append.mp he with h | h
        · exact hq e h
        · rcases List.mem_singleton.mp h with rfl
          rcases hid with ⟨d, hd⟩
          exact ⟨d + 1, PathLen.succ hd hn⟩

theorem spLoop_sound {α : Type} [DecidableEq α] (adj : Adj α) (toId fromId : α) :
    ∀ (fuel : Nat) (q : List (α × List α)) (vis : List α),
      (∀ e ∈ q, ∃ d, PathLen adj fromId e.1 d) →
      ∀ p, spLoop adj toId fuel q vis = some p → ∃ d, PathLen adj fromId toId d := by
  intro fuel
  induction fuel with
  | zero =>
    intro q vis _ p h
    rw [spLoop] at h
    cases h
  | succ fuel ih =>
    intro q vis hq p h
    match q, hq, h with
    | [], _, h =>
      rw [spLoop] at h
      cases h
    | (id, path) :: rest, hq, h =>
      rw [spLoop] at h
      have hid : ∃ d, PathLen adj fromId id d := hq _ (List.mem_cons_self _ _)
      have hrest : ∀ e ∈ rest, ∃ d, PathLen adj fromId e.1 d :=
        fun e he => hq e (List.mem_cons_of_mem _ he)
      have hspec := spExpand_sound adj fromId toId id path hid (neighborsOf adj id) rest vis
        (fun n hn => hn) hrest
      match hs : spExpand toId path (neighborsOf adj id) rest vis with
      | (some p', q', vis') =>
        rw [hs] at hspec
        exact hspec
      | (none, q', vis') =>
        rw [hs] at hspec
        rw [hs] at h
        exact ih q' vis' hspec p h

/-- Claim C9.  The function `findShortestPath` returns the one-element path when source and
target coincide; on the graph with edges `A→B`, `B→C` it returns `[A,B,C]`
(two hops) for `(A,C)` and `null` for `(C,A)`; and it returns `null` for
every pair with no directed walk from source to target. -/
theorem findShortestPath_claim :
    (∀ (α : Type) [DecidableEq α] (adj : Adj α) (f : α), findShortestPath f f adj = some [f]) ∧
    (findShortestPath "A" "C" abcAdj = some ["A", "B", "C"] ∧
      findShortestPath "C" "A" abcAdj = none) ∧
    (∀ (α : Type) [DecidableEq α] (adj : Adj α) (f t : α),
      (∀ d, ¬ PathLen adj f t d) → findShortestPath f t adj = none) := by
  refine ⟨?_, ⟨by decide, by decide⟩, ?_⟩
  · intro α _ adj f
    rw [findShortestPath, if_pos rfl]
  · intro α _ adj f t hno
    by_cases hft : f = t
    · exact absurd (hft ▸ PathLen.zero) (hno 0)
    · rw [findShortestPath, if_neg hft]
      match hs : spLoop adj t ((bfsUniverse f adj).length + 1) [(f, [f])] [f] with
      | none => rfl
      | some p =>
        have := spLoop_sound adj t f _ [(f, [f])] [f] ?_ p hs
        · rcases this with ⟨d, hd⟩
          exact absurd hd (hno d)
        · intro e he
          rcases List.mem_singleton.mp he with rfl
          exact ⟨0, PathLen.zero⟩

theorem pathLen_from_c_eq : ∀ (v : String) (d : Nat), PathLen abcAdj "C" v d → v = "C" := by
  intro v d h
  induction h with
  | zero => rfl
  | succ hu hedge ihu =>
    rw [ihu] at hedge
    have : neighborsOf abcAdj "C" = [] := by decide
    rw [this] at hedge
    cases hedge

/-- Witness for `findShortestPath_claim`: node `A` is not reachable from `C`
in `abcAdj`, and the third conjunct returns `null` there. -/
theorem findShortestPath_claim_witness :
    (∀ d, ¬ PathLen abcAdj "C" "A" d) ∧ findShortestPath "C" "A" abcAdj = none :=
  have hno : ∀ d, ¬ PathLen abcAdj "C" "A" d := fun d h => by
    have := pathLen_from_c_eq "A" d h
    exact absurd this (by decide)
  ⟨hno, findShortestPath_claim.2.2 String abcAdj "C" "A" hno⟩
